import Mathlib

/-!
A verification development for the mahjong waiting-tile ("tingpai") engine
with wildcard ("joker", letter j) support, a shallow embedding of the Python
class MahjongTingpaiWithJoker of mahjong_tingpai.py.

Modelling conventions:
* tile strings "1s".."9s", "1m".."9m", "1p".."9p", "1z".."7z" and "j" become
  the inductive type Tile below;
* Python's sorted on tile strings compares the digit character first and the
  family letter second (m < p < s < z), with the one-letter string "j" after
  every digit-led string; tile_key reproduces exactly this order on the tile
  values that the program can build from its input (ranks 0..9);
* Python sets are modelled as duplicate-free lists (py_dedup keeps the first
  occurrence, as the seen-set loop in the source does), Counter lookups
  become List.count;
* the recursive backtracking _try_combinations receives an explicit fuel
  argument to make the recursion structural; fuel remaining.length + 1 is
  plenty, because every recursive call drops at least two tiles;
* fallible code is modelled with Option / an explicit result type: the
  ValueError of find_winning_tiles becomes none, and the error dictionaries
  of analyze_hand become the constructors of AnalysisResult.
-/

namespace Mahjong

/-- The four tile families of the source: the numbered suits s (索子),
m (万子), p (筒子) and the honor family z (字牌). -/
inductive Suit : Type
  | s | m | p | z
  deriving DecidableEq, Repr

/-- A tile value: a rank/family tile such as "5m", or the joker "j". -/
inductive Tile : Type
  | norm : Nat → Suit → Tile
  | j : Tile
  deriving DecidableEq, Repr

/-- Position of a family letter in the lexicographic order of the letters
m < p < s < z used by Python's string comparison. -/
def suit_idx : Suit → Nat
  | Suit.m => 0
  | Suit.p => 1
  | Suit.s => 2
  | Suit.z => 3

/-- Numeric key reproducing Python's lexicographic order on tile strings:
rank digit first, then family letter, and the joker "j" after every tile
that the program can parse (ranks 0..9).  Keys of rank/family tiles are
even and the joker key is odd, so the key is injective on all of Tile. -/
def tile_key : Tile → Nat
  | Tile.norm r u => 8 * r + 2 * suit_idx u
  | Tile.j => 801

/-- The list order used by every sorted(...) call of the source. -/
def tile_le (a b : Tile) : Prop := tile_key a ≤ tile_key b

instance : DecidableRel tile_le := fun a b => Nat.decLe (tile_key a) (tile_key b)

/-- sorted(...) of Python on a list of tiles. -/
def sort_tiles (l : List Tile) : List Tile := List.insertionSort tile_le l

/-- self.normal_tiles: the 34 concrete tile identities, in construction
order (suits s, m, p with ranks 1..9, honors z with ranks 1..7). -/
def normal_tiles : List Tile :=
  ((List.range' 1 9).map fun r => Tile.norm r Suit.s) ++
  ((List.range' 1 9).map fun r => Tile.norm r Suit.m) ++
  ((List.range' 1 9).map fun r => Tile.norm r Suit.p) ++
  ((List.range' 1 7).map fun r => Tile.norm r Suit.z)

/-- self.all_tiles = normal_tiles + ['j']. -/
def all_tiles : List Tile := normal_tiles ++ [Tile.j]

/-- self.terminal_honor_tiles: the 13 terminal/honor identities of the
thirteen-orphans shape. -/
def terminal_honor_tiles : List Tile :=
  [Tile.norm 1 Suit.s, Tile.norm 9 Suit.s,
   Tile.norm 1 Suit.m, Tile.norm 9 Suit.m,
   Tile.norm 1 Suit.p, Tile.norm 9 Suit.p,
   Tile.norm 1 Suit.z, Tile.norm 2 Suit.z, Tile.norm 3 Suit.z,
   Tile.norm 4 Suit.z, Tile.norm 5 Suit.z, Tile.norm 6 Suit.z,
   Tile.norm 7 Suit.z]

/-- Python's str.isdigit restricted to the ASCII input alphabet of the
notation, i.e. the regex digit class \d. -/
def is_digit_char (c : Char) : Bool := decide ('0' ≤ c) && decide (c ≤ '9')

/-- The capture group [smpz] of the parsing regex. -/
def suit_of_char (c : Char) : Option Suit :=
  if c = 's' then some Suit.s
  else if c = 'm' then some Suit.m
  else if c = 'p' then some Suit.p
  else if c = 'z' then some Suit.z
  else none

/-- Models re.findall with the pattern of a digit group captured before one
family letter: scan the characters keeping the current digit run (acc); a
family letter arriving right after a nonempty run emits the group, any
other character (and the end of the input) discards the run, exactly as
re.findall does, because no match of the pattern can start at a non-digit
character. -/
def find_groups (acc : List Char) : List Char → List (List Char × Suit)
  | [] => []
  | c :: cs =>
    if is_digit_char c then find_groups (acc ++ [c]) cs
    else
      match suit_of_char c with
      | some u => if acc.isEmpty then find_groups [] cs else (acc, u) :: find_groups [] cs
      | none => find_groups [] cs

/-- parse_hand: count and strip the jokers, run the digit-group regex on the
rest, turn every digit of a group into one tile of the group's family,
append the jokers back and sort.  The input string is modelled as its
character list. -/
def parse_hand (hand_str : List Char) : List Tile :=
  let joker_count := hand_str.count 'j'
  let no_joker := hand_str.filter fun c => decide (c ≠ 'j')
  let groups := find_groups [] no_joker
  let tiles :=
    (groups.map fun g => g.1.map fun d => Tile.norm (d.toNat - '0'.toNat) g.2).flatten
  sort_tiles (tiles ++ List.replicate joker_count Tile.j)

/-- Models itertools.product(self.normal_tiles, repeat := n): every length-n
tuple of concrete tiles, first coordinate outermost. -/
def joker_tuples : Nat → List (List Tile)
  | 0 => [[]]
  | n + 1 => (normal_tiles.map fun t => (joker_tuples n).map fun r => t :: r).flatten

/-- The seen-set deduplication loop of generate_joker_combinations: keep the
first occurrence of every element, in order. -/
def py_dedup_aux {α : Type} [DecidableEq α] (seen : List α) : List α → List α
  | [] => []
  | x :: xs => if x ∈ seen then py_dedup_aux seen xs else x :: py_dedup_aux (x :: seen) xs

/-- Deduplication of a list keeping first occurrences, as Python's loop with
a seen set produces it. -/
def py_dedup {α : Type} [DecidableEq α] (l : List α) : List α := py_dedup_aux [] l

/-- generate_joker_combinations: with no joker the hand itself, otherwise
every way of substituting the (at most 4) jokers by concrete tiles, each
substituted hand sorted, with duplicates removed. -/
def generate_joker_combinations (hand : List Tile) : List (List Tile) :=
  if hand.count Tile.j = 0 then [hand]
  else
    py_dedup ((joker_tuples (if hand.count Tile.j > 4 then 4
        else hand.count Tile.j)).map
      fun r => sort_tiles ((hand.filter fun t => decide (t ≠ Tile.j)) ++ r))

/-- The counting loop of _check_thirteen_orphans over the terminal/honor
list; none models the early return False on a count of 0 or of more
than 2. -/
def orphan_count_loop (tiles : List Tile) : List Tile → Nat → Nat → Option (Nat × Nat)
  | [], pair_count, single_count => some (pair_count, single_count)
  | t :: ts, pair_count, single_count =>
    if tiles.count t = 2 then orphan_count_loop tiles ts (pair_count + 1) single_count
    else if tiles.count t = 1 then orphan_count_loop tiles ts pair_count (single_count + 1)
    else none

/-- The checker _check_thirteen_orphans. -/
def _check_thirteen_orphans (tiles : List Tile) : Bool :=
  if tiles.length ≠ 14 then false
  else if !(tiles.all fun t => terminal_honor_tiles.contains t) then false
  else
    match orphan_count_loop tiles terminal_honor_tiles 0 0 with
    | none => false
    | some (pair_count, single_count) =>
        decide (pair_count = 1) && decide (single_count = 12)

/-- The checker _check_seven_pairs: Counter(tiles).values() is the list of counts of the
distinct tiles in first-occurrence order. -/
def _check_seven_pairs (tiles : List Tile) : Bool :=
  if tiles.length ≠ 14 then false
  else
    decide (((((py_dedup tiles).map fun t => tiles.count t).filter
      fun c => decide (c = 2)).length) = 7) &&
    decide ((((py_dedup tiles).map fun t => tiles.count t).sum) = 14)

/-- The recursion _try_combinations, with an explicit fuel argument making the recursion
structural.  The branch on a joker as smallest remaining tile returns
false where Python would raise ValueError in int('j'); the call sites of
the checker only ever pass joker-free collections (is_winning_hand
expands the jokers first), so that branch is unreachable there. -/
def _try_combinations : Nat → List Tile → List (List Tile) → Nat → Bool
  | 0, _, _, _ => false
  | fuel + 1, remaining, groups, pair_count =>
    if remaining.isEmpty then
      decide ((groups.filter fun g => decide (g.length = 3)).length = 4 ∧
              (groups.filter fun g => decide (g.length = 2)).length = 1)
    else if groups.length > 5 then false
    else
      match sort_tiles remaining with
      | [] => false
      | first_tile :: rest =>
        let rs := first_tile :: rest
        (decide (pair_count = 0) && decide (2 ≤ rs.count first_tile) &&
          _try_combinations fuel ((rs.erase first_tile).erase first_tile)
            (groups ++ [[first_tile, first_tile]]) 1) ||
        (decide (3 ≤ rs.count first_tile) &&
          _try_combinations fuel (((rs.erase first_tile).erase first_tile).erase first_tile)
            (groups ++ [[first_tile, first_tile, first_tile]]) pair_count) ||
        (match first_tile with
         | Tile.norm num suit =>
           if suit = Suit.z then false
           else if num ≤ 7 then
             let tile2 := Tile.norm (num + 1) suit
             let tile3 := Tile.norm (num + 2) suit
             decide (tile2 ∈ rs) && decide (tile3 ∈ rs) &&
               _try_combinations fuel (((rs.erase first_tile).erase tile2).erase tile3)
                 (groups ++ [[first_tile, tile2, tile3]]) pair_count
           else false
         | Tile.j => false)

/-- The checker _check_standard_win. -/
def _check_standard_win (tiles : List Tile) : Bool :=
  _try_combinations (tiles.length + 1) tiles [] 0

/-- is_winning_hand: a 14-tile collection wins when it passes a shape
checker directly (no joker) or when some joker substitution does. -/
def is_winning_hand (tiles : List Tile) : Bool :=
  if tiles.length ≠ 14 then false
  else if !(tiles.contains Tile.j) then
    _check_standard_win tiles || _check_seven_pairs tiles || _check_thirteen_orphans tiles
  else
    (generate_joker_combinations tiles).any fun combo =>
      _check_standard_win combo || _check_seven_pairs combo || _check_thirteen_orphans combo

/-- The loop body of find_winning_tiles: the tiles of self.all_tiles that
pass the 4-copy guard (joker exempt) and whose addition wins.  The Python
result set is modelled as this duplicate-free list. -/
def winning_filter (hand : List Tile) : List Tile :=
  all_tiles.filter fun tile =>
    (decide (tile = Tile.j) || decide (hand.count tile < 4)) &&
      is_winning_hand (hand ++ [tile])

/-- find_winning_tiles; none models the ValueError raised on a hand whose
size is not 13. -/
def find_winning_tiles (hand : List Tile) : Option (List Tile) :=
  if hand.length = 13 then some (winning_filter hand) else none

/-- Size of the winning-tile set of a hand (0 for a rejected hand size). -/
def winning_count (hand : List Tile) : Nat :=
  ((find_winning_tiles hand).getD []).length

/-- The structured outcomes of analyze_hand: the three error dictionaries
(wrong tile count, invalid tiles, copy limit) and the success record with
the sorted winning tiles and the is_tingpai flag.  The presentation-only
fields of the Python dictionary (suit distribution, tile frequencies,
winning-type names) are omitted. -/
inductive AnalysisResult : Type
  | wrongCount : Nat → List Tile → AnalysisResult
  | invalidTile : List Tile → List Tile → AnalysisResult
  | copyLimitExceeded : List Tile → List Tile → AnalysisResult
  | ok : List Tile → List Tile → Bool → AnalysisResult
  deriving DecidableEq, Repr

/-- The part of analyze_hand after parsing: the 13-count check, then the
tile-validity check, then the 4-copy check (joker exempt), then the
winning-tile computation.  In the success branch find_winning_tiles
cannot raise because the hand size is exactly 13, so its filter body is
used directly. -/
def analyze_parsed (hand : List Tile) : AnalysisResult :=
  if hand.length ≠ 13 then AnalysisResult.wrongCount hand.length hand
  else if hand.filter (fun t => !(all_tiles.contains t)) ≠ [] then
    AnalysisResult.invalidTile (hand.filter fun t => !(all_tiles.contains t)) hand
  else if ((py_dedup hand).filter fun t =>
      decide (t ≠ Tile.j) && decide (4 < hand.count t)) ≠ [] then
    AnalysisResult.copyLimitExceeded
      ((py_dedup hand).filter fun t =>
        decide (t ≠ Tile.j) && decide (4 < hand.count t)) hand
  else
    AnalysisResult.ok hand (sort_tiles (winning_filter hand))
      (!(winning_filter hand).isEmpty)

/-- analyze_hand on an input string (modelled as its character list). -/
def analyze_hand (hand_str : List Char) : AnalysisResult :=
  analyze_parsed (parse_hand hand_str)

/-- Discriminator of the InvalidTile outcome. -/
def is_invalid_tile_result : AnalysisResult → Bool
  | AnalysisResult.invalidTile _ _ => true
  | _ => false

/-- A pair in the sense of the specification: two identical tiles. -/
def SpecPair (g : List Tile) : Prop := ∃ t, g = [t, t]

/-- A triplet in the sense of the specification: three identical tiles. -/
def SpecTriplet (g : List Tile) : Prop := ∃ t, g = [t, t, t]

/-- A sequence in the sense of the specification: three tiles of one
numbered suit with strictly consecutive ranks; honor tiles never form a
sequence. -/
def SpecSequence (g : List Tile) : Prop :=
  ∃ num suit, suit ≠ Suit.z ∧
    g = [Tile.norm num suit, Tile.norm (num + 1) suit, Tile.norm (num + 2) suit]

/-- A meld in the sense of the specification: a triplet or a sequence. -/
def SpecMeld (g : List Tile) : Prop := SpecTriplet g ∨ SpecSequence g

/-- The standard winning shape of the specification: the collection splits
into exactly four melds plus exactly one pair, nothing left over. -/
def SpecStandardPartition (tiles : List Tile) : Prop :=
  ∃ (melds : List (List Tile)) (pair : List Tile),
    melds.length = 4 ∧ (∀ g ∈ melds, SpecMeld g) ∧ SpecPair pair ∧
    tiles.Perm (melds.flatten ++ pair)

/-- The thirteen-orphans shape of the specification: only terminal/honor
tiles, all 13 of them present, one as the pair and the other twelve as
singles. -/
def SpecThirteenOrphans (tiles : List Tile) : Prop :=
  (∀ t ∈ tiles, t ∈ terminal_honor_tiles) ∧
  ∃ p ∈ terminal_honor_tiles, tiles.count p = 2 ∧
    ∀ t ∈ terminal_honor_tiles, t ≠ p → tiles.count t = 1

/-! ### Basic facts about the tile order and sorting -/

theorem tile_key_inj {a b : Tile} (h : tile_key a = tile_key b) : a = b := by
  cases a with
  | norm r u =>
    cases b with
    | norm r' u' =>
      cases u <;> cases u' <;> simp_all [tile_key, suit_idx] <;> omega
    | j => cases u <;> simp_all [tile_key, suit_idx] <;> omega
  | j =>
    cases b with
    | norm r' u' => cases u' <;> simp_all [tile_key, suit_idx] <;> omega
    | j => rfl

instance : IsTotal Tile tile_le := ⟨fun a b => Nat.le_total (tile_key a) (tile_key b)⟩

instance : IsTrans Tile tile_le := ⟨fun _ _ _ h1 h2 => Nat.le_trans h1 h2⟩

instance : IsRefl Tile tile_le := ⟨fun a => Nat.le_refl (tile_key a)⟩

instance : IsAntisymm Tile tile_le :=
  ⟨fun _ _ h1 h2 => tile_key_inj (Nat.le_antisymm h1 h2)⟩

theorem sort_tiles_perm (l : List Tile) : (sort_tiles l).Perm l :=
  List.perm_insertionSort tile_le l

theorem sort_tiles_sorted (l : List Tile) : List.Sorted tile_le (sort_tiles l) :=
  List.sorted_insertionSort tile_le l

theorem sort_tiles_eq_of_perm {l₁ l₂ : List Tile} (h : l₁.Perm l₂) :
    sort_tiles l₁ = sort_tiles l₂ :=
  List.eq_of_perm_of_sorted
    ((sort_tiles_perm l₁).trans (h.trans (sort_tiles_perm l₂).symm))
    (sort_tiles_sorted l₁) (sort_tiles_sorted l₂)

/-! ### Facts about the seen-set deduplication -/

theorem mem_py_dedup_aux {α : Type} [DecidableEq α] {a : α} :
    ∀ {seen l : List α}, a ∈ py_dedup_aux seen l ↔ a ∈ l ∧ a ∉ seen := by
  intro seen l
  induction l generalizing seen with
  | nil => simp [py_dedup_aux]
  | cons x xs ih =>
    by_cases hx : x ∈ seen
    · rw [py_dedup_aux, if_pos hx, ih]
      by_cases hax : a = x
      · subst hax; simp [hx]
      · simp [List.mem_cons, hax]
    · rw [py_dedup_aux, if_neg hx]
      by_cases hax : a = x
      · subst hax; simp [hx]
      · simp [List.mem_cons, ih, hax]

theorem mem_py_dedup {α : Type} [DecidableEq α] {a : α} {l : List α} :
    a ∈ py_dedup l ↔ a ∈ l := by
  simp [py_dedup, mem_py_dedup_aux]

theorem py_dedup_aux_nodup {α : Type} [DecidableEq α] :
    ∀ (seen l : List α), (py_dedup_aux seen l).Nodup := by
  intro seen l
  induction l generalizing seen with
  | nil => simp [py_dedup_aux]
  | cons x xs ih =>
    by_cases hx : x ∈ seen
    · rw [py_dedup_aux, if_pos hx]; exact ih seen
    · rw [py_dedup_aux, if_neg hx]
      refine List.nodup_cons.mpr ⟨?_, ih (x :: seen)⟩
      intro hmem
      exact (mem_py_dedup_aux.mp hmem).2 (List.mem_cons_self x seen)

theorem py_dedup_nodup {α : Type} [DecidableEq α] (l : List α) : (py_dedup l).Nodup :=
  py_dedup_aux_nodup [] l

/-! ### Facts about the joker substitution tuples -/

theorem length_of_mem_joker_tuples :
    ∀ {n : Nat} {r : List Tile}, r ∈ joker_tuples n → r.length = n := by
  intro n
  induction n with
  | zero => intro r hr; simp [joker_tuples] at hr; simp [hr]
  | succ n ih =>
    intro r hr
    simp only [joker_tuples, List.mem_flatten, List.mem_map] at hr
    obtain ⟨_, ⟨t, _, rfl⟩, hr⟩ := hr
    obtain ⟨r', hr', rfl⟩ := List.mem_map.mp hr
    simp [ih hr']

theorem cons_mem_joker_tuples {n : Nat} {t : Tile} {r : List Tile}
    (ht : t ∈ normal_tiles) (hr : r ∈ joker_tuples n) :
    t :: r ∈ joker_tuples (n + 1) := by
  simp only [joker_tuples, List.mem_flatten, List.mem_map]
  exact ⟨(joker_tuples n).map fun r => t :: r, ⟨t, ht, rfl⟩, List.mem_map.mpr ⟨r, hr, rfl⟩⟩

theorem mem_joker_tuples_of :
    ∀ {r : List Tile}, (∀ x ∈ r, x ∈ normal_tiles) → r ∈ joker_tuples r.length := by
  intro r
  induction r with
  | nil => intro _; simp [joker_tuples]
  | cons x xs ih =>
    intro h
    exact cons_mem_joker_tuples (h x (List.mem_cons_self x xs))
      (ih fun y hy => h y (List.mem_cons_of_mem x hy))

/-! ### Arithmetic of filtering the jokers out -/

theorem length_filter_ne (l : List Tile) (a : Tile) :
    (l.filter fun t => decide (t ≠ a)).length = l.length - l.count a := by
  induction l with
  | nil => simp
  | cons x xs ih =>
    have hc := List.count_le_length a xs
    rw [List.filter_cons]
    by_cases hx : x = a
    · subst hx
      rw [if_neg (by simp), ih, List.count_cons_self, List.length_cons]
      omega
    · rw [if_pos (by simp [hx]), List.length_cons, ih,
        List.count_cons_of_ne (fun h => hx h.symm), List.length_cons]
      omega

/-! ### Generic helper lemmas about filters -/

theorem filter_eq_singleton_of {α : Type} {l : List α} {a : α}
    (p : α → Bool) (hnd : l.Nodup) (ha : a ∈ l) (hpa : p a = true)
    (hother : ∀ b ∈ l, b ≠ a → p b = false) : l.filter p = [a] := by
  induction l with
  | nil => cases ha
  | cons x xs ih =>
    obtain ⟨hx, hnd'⟩ := List.nodup_cons.mp hnd
    rcases List.mem_cons.mp ha with rfl | ha'
    · rw [List.filter_cons, if_pos hpa]
      have : xs.filter p = [] := by
        apply List.filter_eq_nil_iff.mpr
        intro b hb
        have hba : b ≠ a := fun h => hx (h ▸ hb)
        simp [hother b (List.mem_cons_of_mem _ hb) hba]
      rw [this]
    · have hxa : x ≠ a := fun h => hx (h ▸ ha')
      rw [List.filter_cons, if_neg (by simp [hother x (List.mem_cons_self x xs) hxa])]
      exact ih hnd' ha' fun b hb => hother b (List.mem_cons_of_mem _ hb)

theorem length_filter_partition {α : Type} (p q : α → Bool) :
    ∀ (l : List α),
      (∀ x ∈ l, (p x = true ∧ q x = false) ∨ (p x = false ∧ q x = true)) →
      (l.filter p).length + (l.filter q).length = l.length := by
  intro l
  induction l with
  | nil => intro _; simp
  | cons x xs ih =>
    intro h
    have hx := h x (List.mem_cons_self x xs)
    have ihx := ih fun y hy => h y (List.mem_cons_of_mem x hy)
    rcases hx with ⟨h1, h2⟩ | ⟨h1, h2⟩ <;>
      simp [List.filter_cons, h1, h2] <;> omega

/-! ### The thirteen-orphans counting loop -/

theorem orphan_count_loop_sound (tiles : List Tile) :
    ∀ (l : List Tile) (pc sc pc' sc' : Nat),
      orphan_count_loop tiles l pc sc = some (pc', sc') →
      (∀ t ∈ l, tiles.count t = 1 ∨ tiles.count t = 2) ∧
      pc' = pc + (l.filter fun t => decide (tiles.count t = 2)).length ∧
      sc' = sc + (l.filter fun t => decide (tiles.count t = 1)).length := by
  intro l
  induction l with
  | nil =>
    intro pc sc pc' sc' h
    simp only [orphan_count_loop, Option.some.injEq, Prod.mk.injEq] at h
    obtain ⟨rfl, rfl⟩ := h
    simp
  | cons t ts ih =>
    intro pc sc pc' sc' h
    by_cases h2 : tiles.count t = 2
    · rw [orphan_count_loop, if_pos h2] at h
      obtain ⟨hall, hpc, hsc⟩ := ih _ _ _ _ h
      refine ⟨?_, ?_, ?_⟩
      · intro u hu
        rcases List.mem_cons.mp hu with rfl | hu'
        · exact Or.inr h2
        · exact hall u hu'
      · simp [List.filter_cons, h2, hpc]; omega
      · have h1 : ¬ tiles.count t = 1 := by omega
        simp [List.filter_cons, h1, hsc]
    · by_cases h1 : tiles.count t = 1
      · rw [orphan_count_loop, if_neg h2, if_pos h1] at h
        obtain ⟨hall, hpc, hsc⟩ := ih _ _ _ _ h
        refine ⟨?_, ?_, ?_⟩
        · intro u hu
          rcases List.mem_cons.mp hu with rfl | hu'
          · exact Or.inl h1
          · exact hall u hu'
        · simp [List.filter_cons, h2, hpc]
        · simp [List.filter_cons, h1, hsc]; omega
      · rw [orphan_count_loop, if_neg h2, if_neg h1] at h
        cases h

theorem orphan_count_loop_complete (tiles : List Tile) :
    ∀ (l : List Tile) (pc sc : Nat),
      (∀ t ∈ l, tiles.count t = 1 ∨ tiles.count t = 2) →
      orphan_count_loop tiles l pc sc =
        some (pc + (l.filter fun t => decide (tiles.count t = 2)).length,
              sc + (l.filter fun t => decide (tiles.count t = 1)).length) := by
  intro l
  induction l with
  | nil => intro pc sc _; simp [orphan_count_loop]
  | cons t ts ih =>
    intro pc sc h
    have hts := fun u hu => h u (List.mem_cons_of_mem t hu)
    rcases h t (List.mem_cons_self t ts) with h1 | h2
    · have h2 : ¬ tiles.count t = 2 := by omega
      rw [orphan_count_loop, if_neg h2, if_pos h1, ih _ _ hts]
      simp [List.filter_cons, h1, h2]
      omega
    · rw [orphan_count_loop, if_pos h2, ih _ _ hts]
      have h1 : ¬ tiles.count t = 1 := by omega
      simp [List.filter_cons, h1, h2]
      omega

/-! ### Claims C10, C5 and C6 -/

/-- C10: the winning-hand predicate is total (it is a Lean function) and, on
every tile collection whose size is not exactly 14, with or without
wildcards, is_winning_hand returns false rather than signalling an
error. -/
theorem C10_wrong_size_is_false (tiles : List Tile) (h : tiles.length ≠ 14) :
    is_winning_hand tiles = false := by
  rw [is_winning_hand, if_pos h]

/-- Witness for C10 at a concrete one-tile collection holding a wildcard. -/
theorem C10_wrong_size_is_false_witness :
    ([Tile.j] : List Tile).length ≠ 14 ∧ is_winning_hand [Tile.j] = false :=
  ⟨by decide, C10_wrong_size_is_false [Tile.j] (by decide)⟩

/-- C5, behaviour of the code at the failing input: parse_hand on "1s2",
whose trailing digit 2 is not followed by a family letter, silently drops
that digit and succeeds with the single tile 1s; no failure of any kind
is signalled, although the specification (and the claim) require a
ParseError on this input.  This exhibits the defect that the
specification itself records in its design notes. -/
theorem C5_trailing_digit_silently_dropped :
    parse_hand ['1', 's', '2'] = [Tile.norm 1 Suit.s] := by decide

/-- C6: for every 14-tile collection, the thirteen-orphans checker accepts
iff every tile lies in the fixed 13-identity terminal/honor set, all 13
members of the set are present, exactly one of them with count 2 and the
other twelve with count 1, and no tile outside the set appears. -/
theorem C6_thirteen_orphans_iff (tiles : List Tile) (hlen : tiles.length = 14) :
    _check_thirteen_orphans tiles = true ↔ SpecThirteenOrphans tiles := by
  have hTH : terminal_honor_tiles.Nodup := by decide
  rw [_check_thirteen_orphans, if_neg (by simp [hlen])]
  constructor
  · intro hck
    cases hall : (tiles.all fun t => terminal_honor_tiles.contains t) with
    | false => rw [hall] at hck; simp at hck
    | true =>
      rw [hall] at hck
      simp only [Bool.not_true] at hck
      rw [if_neg (by simp)] at hck
      cases hloop : orphan_count_loop tiles terminal_honor_tiles 0 0 with
      | none => rw [hloop] at hck; simp at hck
      | some pr =>
        obtain ⟨pc, sc⟩ := pr
        rw [hloop] at hck
        simp only [Bool.and_eq_true, decide_eq_true_eq] at hck
        obtain ⟨hpc, hsc⟩ := hck
        obtain ⟨hcounts, hpc', hsc'⟩ := orphan_count_loop_sound tiles _ _ _ _ _ hloop
        have hfilter2 :
            (terminal_honor_tiles.filter fun t => decide (tiles.count t = 2)).length = 1 := by
          omega
        obtain ⟨p, hp⟩ := List.length_eq_one.mp hfilter2
        have hpmem := List.mem_filter.mp (hp ▸ List.mem_cons_self p [])
        refine ⟨?_, p, hpmem.1, by simpa using hpmem.2, ?_⟩
        · intro t ht
          have := List.all_eq_true.mp hall t ht
          simpa using this
        · intro t htTH htp
          rcases hcounts t htTH with h1 | h2
          · exact h1
          · exfalso
            have : t ∈ (terminal_honor_tiles.filter fun t => decide (tiles.count t = 2)) :=
              List.mem_filter.mpr ⟨htTH, by simpa using h2⟩
            rw [hp] at this
            exact htp (List.mem_singleton.mp this)
  · rintro ⟨hin, p, hpTH, hp2, hrest⟩
    have hall : (tiles.all fun t => terminal_honor_tiles.contains t) = true :=
      List.all_eq_true.mpr fun t ht => by simpa using hin t ht
    have hcounts : ∀ t ∈ terminal_honor_tiles, tiles.count t = 1 ∨ tiles.count t = 2 := by
      intro t htTH
      by_cases htp : t = p
      · subst htp; exact Or.inr hp2
      · exact Or.inl (hrest t htTH htp)
    have hfilter2 :
        (terminal_honor_tiles.filter fun t => decide (tiles.count t = 2)) = [p] := by
      apply filter_eq_singleton_of _ hTH hpTH (by simpa using hp2)
      intro b hb hbp
      simp [hrest b hb hbp]
    have hxor : ∀ t ∈ terminal_honor_tiles,
        ((fun t => decide (tiles.count t = 1)) t = true ∧
          (fun t => decide (tiles.count t = 2)) t = false) ∨
        ((fun t => decide (tiles.count t = 1)) t = false ∧
          (fun t => decide (tiles.count t = 2)) t = true) := by
      intro t htTH
      by_cases htp : t = p
      · subst htp; right; simp [hp2]
      · left; simp [hrest t htTH htp]
    have hpart := length_filter_partition _ _ terminal_honor_tiles hxor
    have hfilter1 :
        (terminal_honor_tiles.filter fun t => decide (tiles.count t = 1)).length = 12 := by
      rw [hfilter2] at hpart
      have h13 : terminal_honor_tiles.length = 13 := by decide
      simp only [List.length_singleton] at hpart
      omega
    rw [hall]
    simp only [Bool.not_true]
    rw [if_neg (by simp)]
    rw [orphan_count_loop_complete tiles terminal_honor_tiles 0 0 hcounts]
    simp [hfilter2, hfilter1]

/-- Witness for C6 at the concrete collection of all 13 terminal/honor tiles
plus a second east wind. -/
theorem C6_thirteen_orphans_iff_witness :
    (terminal_honor_tiles ++ [Tile.norm 1 Suit.z]).length = 14 ∧
      (_check_thirteen_orphans (terminal_honor_tiles ++ [Tile.norm 1 Suit.z]) = true ↔
        SpecThirteenOrphans (terminal_honor_tiles ++ [Tile.norm 1 Suit.z])) :=
  ⟨by decide, C6_thirteen_orphans_iff _ (by decide)⟩

/-! ### Utilities for the standard-shape backtracking -/

theorem perm_flatten_of_perm {α : Type} :
    ∀ {l₁ l₂ : List (List α)}, l₁.Perm l₂ → l₁.flatten.Perm l₂.flatten := by
  intro l₁ l₂ h
  induction h with
  | nil => exact List.Perm.refl _
  | cons x _ ih => simpa using ih.append_left x
  | swap x y l =>
    simp only [List.flatten_cons, ← List.append_assoc]
    exact List.perm_append_comm.append_right _
  | trans _ _ ih1 ih2 => exact ih1.trans ih2

theorem flatten_filter_partition {α : Type} (p : List α → Bool) :
    ∀ (l : List (List α)),
      l.flatten.Perm ((l.filter p).flatten ++ (l.filter fun g => !(p g)).flatten) := by
  intro l
  induction l with
  | nil => simp
  | cons x xs ih =>
    by_cases hx : p x = true
    · rw [List.flatten_cons, List.filter_cons, if_pos (by simp [hx]),
        List.filter_cons, if_neg (by simp [hx]), List.flatten_cons, List.append_assoc]
      exact ih.append_left x
    · have hx' : p x = false := by revert hx; cases p x <;> simp
      rw [List.flatten_cons, List.filter_cons, if_neg (by simp [hx']),
        List.filter_cons, if_pos (by simp [hx']), List.flatten_cons]
      have h := (@List.perm_append_comm _ x ((xs.filter p).flatten)).append_right
        ((xs.filter fun g => !(p g)).flatten)
      rw [List.append_assoc, List.append_assoc] at h
      exact (ih.append_left x).trans h

theorem sort_tiles_ne_nil {l : List Tile} (h : l ≠ []) : sort_tiles l ≠ [] := by
  intro hs
  have hlen := (sort_tiles_perm l).length_eq
  rw [hs] at hlen
  exact h (List.eq_nil_of_length_eq_zero hlen.symm)

theorem sorted_head_le {ft : Tile} {rest l : List Tile}
    (hsort : sort_tiles l = ft :: rest) : ∀ b ∈ l, tile_le ft b := by
  intro b hb
  have hperm := sort_tiles_perm l
  have hmem : b ∈ ft :: rest := by
    rw [← hsort]
    exact hperm.mem_iff.mpr hb
  rcases List.mem_cons.mp hmem with rfl | hmem'
  · exact Nat.le_refl _
  · have hs := sort_tiles_sorted l
    rw [hsort] at hs
    exact (List.sorted_cons.mp hs).1 b hmem'

theorem head_mem_of_sort {ft : Tile} {rest l : List Tile}
    (hsort : sort_tiles l = ft :: rest) : ft ∈ l := by
  have : ft ∈ sort_tiles l ↔ ft ∈ l := (sort_tiles_perm l).mem_iff
  rw [hsort] at this
  exact this.mp (List.mem_cons_self ft rest)

theorem spec_meld_length {g : List Tile} (h : SpecMeld g) : g.length = 3 := by
  rcases h with ⟨t, rfl⟩ | ⟨n, u, _, rfl⟩ <;> rfl

theorem spec_pair_length {g : List Tile} (h : SpecPair g) : g.length = 2 := by
  obtain ⟨t, rfl⟩ := h
  rfl

theorem flatten_length_of_melds {melds : List (List Tile)}
    (h : ∀ g ∈ melds, SpecMeld g) : melds.flatten.length = 3 * melds.length := by
  induction melds with
  | nil => simp
  | cons g gs ih =>
    have hg := spec_meld_length (h g (List.mem_cons_self g gs))
    have ihg := ih fun x hx => h x (List.mem_cons_of_mem g hx)
    simp [List.flatten_cons, hg, ihg]
    ring

theorem rank_bounds_of_mem_normal {r : Nat} {u : Suit}
    (h : Tile.norm r u ∈ normal_tiles) : 1 ≤ r ∧ r ≤ 9 := by
  simp only [normal_tiles, List.mem_append, List.mem_map] at h
  rcases h with ((⟨x, hx, he⟩ | ⟨x, hx, he⟩) | ⟨x, hx, he⟩) | ⟨x, hx, he⟩ <;>
    · obtain ⟨h1, h2⟩ := Tile.norm.injEq .. ▸ he
      subst h1
      have := List.mem_range'_1.mp hx
      omega

/-- Inversion of one successful non-trivial backtracking step: the success
came through the pair branch, the triplet branch or the sequence
branch. -/
theorem try_combinations_step_inv {fuel : Nat} {remaining : List Tile}
    {groups : List (List Tile)} {pair_count : Nat} {ft : Tile} {rest : List Tile}
    (hrem : ¬ remaining.isEmpty = true) (hg5 : ¬ groups.length > 5)
    (hsort : sort_tiles remaining = ft :: rest)
    (h : _try_combinations (fuel + 1) remaining groups pair_count = true) :
    (pair_count = 0 ∧ 2 ≤ (ft :: rest).count ft ∧
      _try_combinations fuel (((ft :: rest).erase ft).erase ft)
        (groups ++ [[ft, ft]]) 1 = true) ∨
    (3 ≤ (ft :: rest).count ft ∧
      _try_combinations fuel ((((ft :: rest).erase ft).erase ft).erase ft)
        (groups ++ [[ft, ft, ft]]) pair_count = true) ∨
    (∃ num suit, ft = Tile.norm num suit ∧ ¬ suit = Suit.z ∧ num ≤ 7 ∧
      Tile.norm (num + 1) suit ∈ ft :: rest ∧ Tile.norm (num + 2) suit ∈ ft :: rest ∧
      _try_combinations fuel
        ((((ft :: rest).erase ft).erase (Tile.norm (num + 1) suit)).erase
          (Tile.norm (num + 2) suit))
        (groups ++ [[ft, Tile.norm (num + 1) suit, Tile.norm (num + 2) suit]])
        pair_count = true) := by
  rw [_try_combinations, if_neg hrem, if_neg hg5, hsort] at h
  clear hsort hrem
  rcases (Bool.or_eq_true _ _).mp h with h12 | hseq
  · rcases (Bool.or_eq_true _ _).mp h12 with hpairb | htripb
    · simp only [Bool.and_eq_true, decide_eq_true_eq] at hpairb
      exact Or.inl ⟨hpairb.1.1, hpairb.1.2, hpairb.2⟩
    · simp only [Bool.and_eq_true, decide_eq_true_eq] at htripb
      exact Or.inr (Or.inl ⟨htripb.1, htripb.2⟩)
  · refine Or.inr (Or.inr ?_)
    clear h
    cases ft with
    | j => exact Bool.noConfusion hseq
    | norm num suit =>
      have hseq' : (if suit = Suit.z then false
        else if num ≤ 7 then
          decide (Tile.norm (num + 1) suit ∈ Tile.norm num suit :: rest) &&
          decide (Tile.norm (num + 2) suit ∈ Tile.norm num suit :: rest) &&
            _try_combinations fuel
              ((((Tile.norm num suit :: rest).erase (Tile.norm num suit)).erase
                (Tile.norm (num + 1) suit)).erase (Tile.norm (num + 2) suit))
              (groups ++ [[Tile.norm num suit, Tile.norm (num + 1) suit,
                Tile.norm (num + 2) suit]]) pair_count
        else false) = true := hseq
      by_cases hz : suit = Suit.z
      · rw [if_pos hz] at hseq'
        exact Bool.noConfusion hseq'
      · rw [if_neg hz] at hseq'
        by_cases h7 : num ≤ 7
        · rw [if_pos h7] at hseq'
          simp only [Bool.and_eq_true, decide_eq_true_eq] at hseq'
          exact ⟨num, suit, rfl, hz, h7, hseq'.1.1, hseq'.1.2, hseq'.2⟩
        · rw [if_neg h7] at hseq'
          exact Bool.noConfusion hseq'

/-- A successful pair branch makes the whole step succeed. -/
theorem try_combinations_pair_intro {fuel : Nat} {remaining : List Tile}
    {groups : List (List Tile)} {pair_count : Nat} {ft : Tile} {rest : List Tile}
    (hrem : ¬ remaining.isEmpty = true) (hg5 : ¬ groups.length > 5)
    (hsort : sort_tiles remaining = ft :: rest)
    (hpc : pair_count = 0) (hcnt : 2 ≤ (ft :: rest).count ft)
    (hrec : _try_combinations fuel (((ft :: rest).erase ft).erase ft)
      (groups ++ [[ft, ft]]) 1 = true) :
    _try_combinations (fuel + 1) remaining groups pair_count = true := by
  rw [_try_combinations, if_neg hrem, if_neg hg5, hsort]
  apply (Bool.or_eq_true _ _).mpr
  refine Or.inl ((Bool.or_eq_true _ _).mpr (Or.inl ?_))
  have hcnt' := hcnt
  rw [List.count_cons_self] at hcnt'
  have hftrest : ft ∈ rest := List.count_pos_iff.mp (by omega)
  rw [List.erase_cons_head] at hrec
  simp [hpc, hftrest, hrec]

/-- A successful triplet branch makes the whole step succeed. -/
theorem try_combinations_triplet_intro {fuel : Nat} {remaining : List Tile}
    {groups : List (List Tile)} {pair_count : Nat} {ft : Tile} {rest : List Tile}
    (hrem : ¬ remaining.isEmpty = true) (hg5 : ¬ groups.length > 5)
    (hsort : sort_tiles remaining = ft :: rest)
    (hcnt : 3 ≤ (ft :: rest).count ft)
    (hrec : _try_combinations fuel ((((ft :: rest).erase ft).erase ft).erase ft)
      (groups ++ [[ft, ft, ft]]) pair_count = true) :
    _try_combinations (fuel + 1) remaining groups pair_count = true := by
  rw [_try_combinations, if_neg hrem, if_neg hg5, hsort]
  apply (Bool.or_eq_true _ _).mpr
  refine Or.inl ((Bool.or_eq_true _ _).mpr (Or.inr ?_))
  have hcnt' := hcnt
  rw [List.count_cons_self] at hcnt'
  have hcrest : 2 ≤ rest.count ft := by omega
  rw [List.erase_cons_head] at hrec
  simp [hcrest, hrec]

/-- A successful sequence branch makes the whole step succeed. -/
theorem try_combinations_seq_intro {fuel : Nat} {remaining : List Tile}
    {groups : List (List Tile)} {pair_count : Nat} {num : Nat} {suit : Suit}
    {rest : List Tile}
    (hrem : ¬ remaining.isEmpty = true) (hg5 : ¬ groups.length > 5)
    (hsort : sort_tiles remaining = Tile.norm num suit :: rest)
    (hz : ¬ suit = Suit.z) (h7 : num ≤ 7)
    (ht2 : Tile.norm (num + 1) suit ∈ Tile.norm num suit :: rest)
    (ht3 : Tile.norm (num + 2) suit ∈ Tile.norm num suit :: rest)
    (hrec : _try_combinations fuel
      ((((Tile.norm num suit :: rest).erase (Tile.norm num suit)).erase
          (Tile.norm (num + 1) suit)).erase (Tile.norm (num + 2) suit))
      (groups ++ [[Tile.norm num suit, Tile.norm (num + 1) suit,
        Tile.norm (num + 2) suit]]) pair_count = true) :
    _try_combinations (fuel + 1) remaining groups pair_count = true := by
  rw [_try_combinations, if_neg hrem, if_neg hg5, hsort]
  apply (Bool.or_eq_true _ _).mpr
  refine Or.inr ?_
  show (if suit = Suit.z then false
    else if num ≤ 7 then
      decide (Tile.norm (num + 1) suit ∈ Tile.norm num suit :: rest) &&
      decide (Tile.norm (num + 2) suit ∈ Tile.norm num suit :: rest) &&
        _try_combinations fuel
          ((((Tile.norm num suit :: rest).erase (Tile.norm num suit)).erase
              (Tile.norm (num + 1) suit)).erase (Tile.norm (num + 2) suit))
          (groups ++ [[Tile.norm num suit, Tile.norm (num + 1) suit,
            Tile.norm (num + 2) suit]]) pair_count
    else false) = true
  rw [if_neg hz, if_pos h7]
  rw [List.erase_cons_head] at hrec
  simp [ht2, ht3, hrec]

/-- Soundness of the backtracking: a successful call decomposes its
remainder into melds and pairs whose tallies, together with the groups
already committed, are exactly four melds and one pair. -/
theorem try_combinations_sound :
    ∀ (fuel : Nat) (remaining : List Tile) (groups : List (List Tile)) (pair_count : Nat),
      _try_combinations fuel remaining groups pair_count = true →
      ∃ ns : List (List Tile),
        (∀ g ∈ ns, SpecMeld g ∨ SpecPair g) ∧
        remaining.Perm ns.flatten ∧
        ((groups ++ ns).filter fun g => decide (g.length = 3)).length = 4 ∧
        ((groups ++ ns).filter fun g => decide (g.length = 2)).length = 1 := by
  intro fuel
  induction fuel with
  | zero =>
    intro remaining groups pc h
    rw [_try_combinations] at h
    exact Bool.noConfusion h
  | succ fuel ih =>
    intro remaining groups pc h
    by_cases hrem : remaining.isEmpty = true
    · rw [_try_combinations, if_pos hrem] at h
      have hrnil : remaining = [] := by
        cases remaining
        · rfl
        · simp at hrem
      subst hrnil
      have hh := of_decide_eq_true h
      exact ⟨[], by simp, by simp, by simpa using hh.1, by simpa using hh.2⟩
    · by_cases hg5 : groups.length > 5
      · rw [_try_combinations, if_neg hrem, if_pos hg5] at h
        exact Bool.noConfusion h
      · have hne : remaining ≠ [] := by
          intro hn
          rw [hn] at hrem
          simp at hrem
        obtain ⟨ft, rest, hsort⟩ : ∃ ft rest, sort_tiles remaining = ft :: rest := by
          cases hs : sort_tiles remaining with
          | nil => exact absurd hs (sort_tiles_ne_nil hne)
          | cons a l => exact ⟨a, l, rfl⟩
        have hperm0 : remaining.Perm (ft :: rest) := by
          have := (sort_tiles_perm remaining).symm
          rwa [hsort] at this
        rcases try_combinations_step_inv hrem hg5 hsort h with
          ⟨hpc0, hcnt, hrec⟩ | ⟨hcnt, hrec⟩ |
          ⟨num, suit, hft, hz, h7, ht2, ht3, hrec⟩
        · -- pair branch
          rw [List.erase_cons_head] at hrec
          obtain ⟨ns, hval, hperm, h3, h2⟩ := ih _ _ _ hrec
          have hftrest : ft ∈ rest := by
            rw [List.count_cons_self] at hcnt
            exact List.count_pos_iff.mp (by omega)
          refine ⟨[ft, ft] :: ns, ?_, ?_, ?_, ?_⟩
          · intro g hg
            rcases List.mem_cons.mp hg with rfl | hg'
            · exact Or.inr ⟨ft, rfl⟩
            · exact hval g hg'
          · have p2 : rest.Perm (ft :: rest.erase ft) := List.perm_cons_erase hftrest
            have : remaining.Perm (ft :: ft :: ns.flatten) :=
              hperm0.trans ((p2.trans (hperm.cons ft)).cons ft)
            simpa using this
          · have heq : groups ++ [ft, ft] :: ns = (groups ++ [[ft, ft]]) ++ ns := by
              simp
            rw [heq]
            exact h3
          · have heq : groups ++ [ft, ft] :: ns = (groups ++ [[ft, ft]]) ++ ns := by
              simp
            rw [heq]
            exact h2
        · -- triplet branch
          rw [List.erase_cons_head] at hrec
          obtain ⟨ns, hval, hperm, h3, h2⟩ := ih _ _ _ hrec
          have hcrest : 2 ≤ rest.count ft := by
            rw [List.count_cons_self] at hcnt
            omega
          have hftrest : ft ∈ rest := List.count_pos_iff.mp (by omega)
          have hft2 : ft ∈ rest.erase ft := by
            apply List.count_pos_iff.mp
            rw [List.count_erase_self]
            omega
          refine ⟨[ft, ft, ft] :: ns, ?_, ?_, ?_, ?_⟩
          · intro g hg
            rcases List.mem_cons.mp hg with rfl | hg'
            · exact Or.inl (Or.inl ⟨ft, rfl⟩)
            · exact hval g hg'
          · have p2 : rest.Perm (ft :: rest.erase ft) := List.perm_cons_erase hftrest
            have p3 : (rest.erase ft).Perm (ft :: (rest.erase ft).erase ft) :=
              List.perm_cons_erase hft2
            have : remaining.Perm (ft :: ft :: ft :: ns.flatten) :=
              hperm0.trans ((p2.trans ((p3.trans (hperm.cons ft)).cons ft)).cons ft)
            simpa using this
          · have heq : groups ++ [ft, ft, ft] :: ns = (groups ++ [[ft, ft, ft]]) ++ ns := by
              simp
            rw [heq]
            exact h3
          · have heq : groups ++ [ft, ft, ft] :: ns = (groups ++ [[ft, ft, ft]]) ++ ns := by
              simp
            rw [heq]
            exact h2
        · -- sequence branch
          subst hft
          rw [List.erase_cons_head] at hrec
          obtain ⟨ns, hval, hperm, h3, h2⟩ := ih _ _ _ hrec
          have ht2ne : Tile.norm (num + 1) suit ≠ Tile.norm num suit := by
            intro hc
            have := (Tile.norm.injEq ..).mp hc
            omega
          have ht3ne1 : Tile.norm (num + 2) suit ≠ Tile.norm num suit := by
            intro hc
            have := (Tile.norm.injEq ..).mp hc
            omega
          have ht3ne2 : Tile.norm (num + 2) suit ≠ Tile.norm (num + 1) suit := by
            intro hc
            have := (Tile.norm.injEq ..).mp hc
            omega
          have ht2rest : Tile.norm (num + 1) suit ∈ rest := by
            rcases List.mem_cons.mp ht2 with hc | hc
            · exact absurd hc ht2ne
            · exact hc
          have ht3rest : Tile.norm (num + 2) suit ∈ rest := by
            rcases List.mem_cons.mp ht3 with hc | hc
            · exact absurd hc ht3ne1
            · exact hc
          have ht3er : Tile.norm (num + 2) suit ∈ rest.erase (Tile.norm (num + 1) suit) :=
            (List.mem_erase_of_ne ht3ne2).mpr ht3rest
          refine ⟨[Tile.norm num suit, Tile.norm (num + 1) suit,
            Tile.norm (num + 2) suit] :: ns, ?_, ?_, ?_, ?_⟩
          · intro g hg
            rcases List.mem_cons.mp hg with rfl | hg'
            · exact Or.inl (Or.inr ⟨num, suit, hz, rfl⟩)
            · exact hval g hg'
          · have p2 : rest.Perm (Tile.norm (num + 1) suit ::
                rest.erase (Tile.norm (num + 1) suit)) :=
              List.perm_cons_erase ht2rest
            have p3 : (rest.erase (Tile.norm (num + 1) suit)).Perm
                (Tile.norm (num + 2) suit ::
                  (rest.erase (Tile.norm (num + 1) suit)).erase
                    (Tile.norm (num + 2) suit)) :=
              List.perm_cons_erase ht3er
            have : remaining.Perm (Tile.norm num suit :: Tile.norm (num + 1) suit ::
                Tile.norm (num + 2) suit :: ns.flatten) :=
              hperm0.trans ((p2.trans ((p3.trans
                (hperm.cons (Tile.norm (num + 2) suit))).cons
                  (Tile.norm (num + 1) suit))).cons (Tile.norm num suit))
            simpa using this
          · have heq : groups ++ [Tile.norm num suit, Tile.norm (num + 1) suit,
                Tile.norm (num + 2) suit] :: ns =
                (groups ++ [[Tile.norm num suit, Tile.norm (num + 1) suit,
                  Tile.norm (num + 2) suit]]) ++ ns := by
              simp
            rw [heq]
            exact h3
          · have heq : groups ++ [Tile.norm num suit, Tile.norm (num + 1) suit,
                Tile.norm (num + 2) suit] :: ns =
                (groups ++ [[Tile.norm num suit, Tile.norm (num + 1) suit,
                  Tile.norm (num + 2) suit]]) ++ ns := by
              simp
            rw [heq]
            exact h2

/-- Completeness of the backtracking: whenever the remaining tiles split
into the melds and the pairs still needed (given the groups already
committed), the search succeeds.  The validity hypothesis guarantees that
a needed sequence never exceeds rank 9, so the rank cap of the sequence
branch cannot block it; anchoring every branch on the smallest remaining
tile is complete because that tile is the minimum of whichever group of
the partition contains it. -/
theorem try_combinations_complete :
    ∀ (fuel : Nat) (remaining : List Tile) (groups : List (List Tile)) (pair_count : Nat)
      (ms ps : List (List Tile)),
      remaining.length + 1 ≤ fuel →
      (∀ t ∈ remaining, t ∈ normal_tiles) →
      (∀ g ∈ ms, SpecMeld g) →
      (∀ g ∈ ps, SpecPair g) →
      remaining.Perm (ms ++ ps).flatten →
      (groups.filter fun g => decide (g.length = 3)).length + ms.length = 4 →
      (groups.filter fun g => decide (g.length = 2)).length + ps.length = 1 →
      pair_count = (groups.filter fun g => decide (g.length = 2)).length →
      (∀ g ∈ groups, g.length = 2 ∨ g.length = 3) →
      _try_combinations fuel remaining groups pair_count = true := by
  intro fuel
  induction fuel with
  | zero =>
    intro remaining groups pc ms ps hfuel
    exact absurd hfuel (by omega)
  | succ fuel ih =>
    intro remaining groups pc ms ps hfuel hvalid hms hps hperm h4 h1 hpc hglen
    by_cases hrem : remaining.isEmpty = true
    · have hrnil : remaining = [] := by
        cases remaining
        · rfl
        · simp at hrem
      subst hrnil
      have hfl : (ms ++ ps).flatten = [] := hperm.symm.eq_nil
      have hmem : ∀ g ∈ ms ++ ps, g = [] := by
        intro g hg
        rcases List.flatten_eq_nil_iff.mp hfl g hg with h
        exact h
      have hmsnil : ms = [] := by
        cases hmsc : ms with
        | nil => rfl
        | cons g gs =>
          have hgm : g ∈ ms := by rw [hmsc]; exact List.mem_cons_self g gs
          have hg := hms g hgm
          have hnil := hmem g (List.mem_append_left _ hgm)
          rw [hnil] at hg
          exact absurd (spec_meld_length hg) (by simp)
      have hpsnil : ps = [] := by
        cases hpsc : ps with
        | nil => rfl
        | cons g gs =>
          have hgm : g ∈ ps := by rw [hpsc]; exact List.mem_cons_self g gs
          have hg := hps g hgm
          have hnil := hmem g (List.mem_append_right _ hgm)
          rw [hnil] at hg
          exact absurd (spec_pair_length hg) (by simp)
      subst hmsnil
      subst hpsnil
      simp only [List.length_nil] at h4 h1
      rw [_try_combinations, if_pos hrem]
      exact decide_eq_true ⟨by omega, by omega⟩
    · have hne : remaining ≠ [] := by
        intro hn
        rw [hn] at hrem
        simp at hrem
      obtain ⟨ft, rest, hsort⟩ : ∃ ft rest, sort_tiles remaining = ft :: rest := by
        cases hs : sort_tiles remaining with
        | nil => exact absurd hs (sort_tiles_ne_nil hne)
        | cons a l => exact ⟨a, l, rfl⟩
      have hperm0 : remaining.Perm (ft :: rest) := by
        have := (sort_tiles_perm remaining).symm
        rwa [hsort] at this
      have hg5 : ¬ groups.length > 5 := by
        have hgsplit := length_filter_partition
          (fun g => decide (g.length = 3)) (fun g => decide (g.length = 2)) groups ?_
        · omega
        · intro g hg
          rcases hglen g hg with h2 | h3
          · exact Or.inr ⟨by simp [h2], by simp [h2]⟩
          · exact Or.inl ⟨by simp [h3], by simp [h3]⟩
      have hftrem : ft ∈ remaining := head_mem_of_sort hsort
      have hftmem : ft ∈ (ms ++ ps).flatten := hperm.mem_iff.mp hftrem
      obtain ⟨g, hgmem, hftg⟩ := List.mem_flatten.mp hftmem
      have hmin : ∀ b ∈ remaining, tile_le ft b := sorted_head_le hsort
      have hlen0 : remaining.length = rest.length + 1 := by
        have := hperm0.length_eq
        simpa using this
      rcases List.mem_append.mp hgmem with hgms | hgps
      · -- ft lies in a meld; split ms around that meld
        obtain ⟨ms₁, ms₂, hmseq⟩ := List.append_of_mem hgms
        subst hmseq
        have hmsperm : (ms₁ ++ g :: ms₂).Perm (g :: (ms₁ ++ ms₂)) := List.perm_middle
        have happ : ((ms₁ ++ g :: ms₂) ++ ps).Perm (g :: ((ms₁ ++ ms₂) ++ ps)) :=
          hmsperm.append_right ps
        have hflat : ((ms₁ ++ g :: ms₂) ++ ps).flatten.Perm
            (g ++ ((ms₁ ++ ms₂) ++ ps).flatten) := perm_flatten_of_perm happ
        have hrem2 : remaining.Perm (g ++ ((ms₁ ++ ms₂) ++ ps).flatten) :=
          hperm.trans hflat
        have hmserase : ∀ x ∈ ms₁ ++ ms₂, SpecMeld x := by
          intro x hx
          rcases List.mem_append.mp hx with hx' | hx'
          · exact hms x (List.mem_append_left _ hx')
          · exact hms x (List.mem_append_right _ (List.mem_cons_of_mem _ hx'))
        rcases hms g hgms with ⟨a, hga⟩ | ⟨n, u, hu, hga⟩
        · -- triplet
          subst hga
          have hfta : ft = a := by
            rcases List.mem_cons.mp hftg with h | h
            · exact h
            · rcases List.mem_cons.mp h with h' | h'
              · exact h'
              · simpa using h'
          subst hfta
          have hrest : rest.Perm (ft :: ft :: ((ms₁ ++ ms₂) ++ ps).flatten) := by
            have h0 : (ft :: rest).Perm
                (ft :: ft :: ft :: ((ms₁ ++ ms₂) ++ ps).flatten) :=
              hperm0.symm.trans hrem2
            exact h0.cons_inv
          have hftrest : ft ∈ rest := hrest.mem_iff.mpr (List.mem_cons_self ..)
          have hcnt : 3 ≤ (ft :: rest).count ft := by
            rw [List.count_cons_self]
            have := hrest.count_eq ft
            rw [List.count_cons_self, List.count_cons_self] at this
            omega
          have herase1 : (rest.erase ft).Perm
              (ft :: ((ms₁ ++ ms₂) ++ ps).flatten) := by
            have := hrest.erase ft
            rwa [List.erase_cons_head] at this
          have hft2 : ft ∈ rest.erase ft := herase1.mem_iff.mpr (List.mem_cons_self ..)
          have herase2 : ((rest.erase ft).erase ft).Perm
              (((ms₁ ++ ms₂) ++ ps).flatten) := by
            have := herase1.erase ft
            rwa [List.erase_cons_head] at this
          apply try_combinations_triplet_intro hrem hg5 hsort hcnt
          rw [List.erase_cons_head]
          refine ih _ _ _ (ms₁ ++ ms₂) ps ?_ ?_ hmserase hps ?_ ?_ ?_ ?_ ?_
          · have e1 : (rest.erase ft).length = rest.length - 1 :=
              List.length_erase_of_mem hftrest
            have e2 : ((rest.erase ft).erase ft).length = (rest.erase ft).length - 1 :=
              List.length_erase_of_mem hft2
            omega
          · intro t ht
            exact hvalid t (hperm0.mem_iff.mpr (List.mem_cons_of_mem _
              (List.mem_of_mem_erase (List.mem_of_mem_erase ht))))
          · exact herase2
          · have hfe : (((groups ++ [[ft, ft, ft]]).filter
                fun g => decide (g.length = 3)).length) =
                ((groups.filter fun g => decide (g.length = 3)).length) + 1 := by
              simp [List.filter_append]
            simp only [List.length_append, List.length_cons] at h4 ⊢
            omega
          · have hfe : (((groups ++ [[ft, ft, ft]]).filter
                fun g => decide (g.length = 2)).length) =
                ((groups.filter fun g => decide (g.length = 2)).length) := by
              simp [List.filter_append]
            omega
          · have hfe : (((groups ++ [[ft, ft, ft]]).filter
                fun g => decide (g.length = 2)).length) =
                ((groups.filter fun g => decide (g.length = 2)).length) := by
              simp [List.filter_append]
            omega
          · intro x hx
            rcases List.mem_append.mp hx with hx' | hx'
            · exact hglen x hx'
            · right
              simp only [List.mem_singleton] at hx'
              simp [hx']
        · -- sequence
          subst hga
          have hnin : Tile.norm n u ∈ remaining := by
            apply hperm.mem_iff.mpr
            exact List.mem_flatten.mpr ⟨_, hgmem, List.mem_cons_self ..⟩
          have hn1in : Tile.norm (n + 1) u ∈ remaining := by
            apply hperm.mem_iff.mpr
            refine List.mem_flatten.mpr ⟨_, hgmem, ?_⟩
            simp
          have hn2in : Tile.norm (n + 2) u ∈ remaining := by
            apply hperm.mem_iff.mpr
            refine List.mem_flatten.mpr ⟨_, hgmem, ?_⟩
            simp
          have hft : ft = Tile.norm n u := by
            have hle := hmin (Tile.norm n u) hnin
            rcases List.mem_cons.mp hftg with h | h
            · exact h
            · rcases List.mem_cons.mp h with h' | h'
              · exfalso
                rw [h'] at hle
                have hk : tile_key (Tile.norm (n + 1) u) ≤ tile_key (Tile.norm n u) := hle
                simp only [tile_key] at hk
                omega
              · exfalso
                have h'' : ft = Tile.norm (n + 2) u := by simpa using h'
                rw [h''] at hle
                have hk : tile_key (Tile.norm (n + 2) u) ≤ tile_key (Tile.norm n u) := hle
                simp only [tile_key] at hk
                omega
          subst hft
          have h7 : n ≤ 7 := by
            have := (rank_bounds_of_mem_normal (hvalid _ hn2in)).2
            omega
          have ht2 : Tile.norm (n + 1) u ∈ Tile.norm n u :: rest :=
            hperm0.mem_iff.mp hn1in
          have ht3 : Tile.norm (n + 2) u ∈ Tile.norm n u :: rest :=
            hperm0.mem_iff.mp hn2in
          have hrest : rest.Perm (Tile.norm (n + 1) u :: Tile.norm (n + 2) u ::
              ((ms₁ ++ ms₂) ++ ps).flatten) := by
            have h0 : (Tile.norm n u :: rest).Perm
                (Tile.norm n u :: Tile.norm (n + 1) u :: Tile.norm (n + 2) u ::
                  ((ms₁ ++ ms₂) ++ ps).flatten) := hperm0.symm.trans hrem2
            exact h0.cons_inv
          have ht2rest : Tile.norm (n + 1) u ∈ rest :=
            hrest.mem_iff.mpr (List.mem_cons_self ..)
          have herase1 : (rest.erase (Tile.norm (n + 1) u)).Perm
              (Tile.norm (n + 2) u :: ((ms₁ ++ ms₂) ++ ps).flatten) := by
            have := hrest.erase (Tile.norm (n + 1) u)
            rwa [List.erase_cons_head] at this
          have ht3er : Tile.norm (n + 2) u ∈ rest.erase (Tile.norm (n + 1) u) :=
            herase1.mem_iff.mpr (List.mem_cons_self ..)
          have herase2 : ((rest.erase (Tile.norm (n + 1) u)).erase
              (Tile.norm (n + 2) u)).Perm (((ms₁ ++ ms₂) ++ ps).flatten) := by
            have := herase1.erase (Tile.norm (n + 2) u)
            rwa [List.erase_cons_head] at this
          apply try_combinations_seq_intro hrem hg5 hsort hu h7 ht2 ht3
          rw [List.erase_cons_head]
          refine ih _ _ _ (ms₁ ++ ms₂) ps ?_ ?_ hmserase hps ?_ ?_ ?_ ?_ ?_
          · have e0 : (rest.erase (Tile.norm (n + 1) u)).length = rest.length - 1 :=
              List.length_erase_of_mem ht2rest
            have e1 : ((rest.erase (Tile.norm (n + 1) u)).erase
                (Tile.norm (n + 2) u)).length =
                (rest.erase (Tile.norm (n + 1) u)).length - 1 :=
              List.length_erase_of_mem ht3er
            omega
          · intro t ht
            exact hvalid t (hperm0.mem_iff.mpr (List.mem_cons_of_mem _
              (List.mem_of_mem_erase (List.mem_of_mem_erase ht))))
          · exact herase2
          · have hfe : (((groups ++ [[Tile.norm n u, Tile.norm (n + 1) u,
                Tile.norm (n + 2) u]]).filter fun g => decide (g.length = 3)).length) =
                ((groups.filter fun g => decide (g.length = 3)).length) + 1 := by
              simp [List.filter_append]
            simp only [List.length_append, List.length_cons] at h4 ⊢
            omega
          · have hfe : (((groups ++ [[Tile.norm n u, Tile.norm (n + 1) u,
                Tile.norm (n + 2) u]]).filter fun g => decide (g.length = 2)).length) =
                ((groups.filter fun g => decide (g.length = 2)).length) := by
              simp [List.filter_append]
            omega
          · have hfe : (((groups ++ [[Tile.norm n u, Tile.norm (n + 1) u,
                Tile.norm (n + 2) u]]).filter fun g => decide (g.length = 2)).length) =
                ((groups.filter fun g => decide (g.length = 2)).length) := by
              simp [List.filter_append]
            omega
          · intro x hx
            rcases List.mem_append.mp hx with hx' | hx'
            · exact hglen x hx'
            · right
              simp only [List.mem_singleton] at hx'
              simp [hx']
      · -- ft lies in the pair
        obtain ⟨a, hga⟩ := hps g hgps
        subst hga
        have hfta : ft = a := by
          rcases List.mem_cons.mp hftg with h | h
          · exact h
          · simpa using h
        subst hfta
        have hpspos : 0 < ps.length := List.length_pos.mpr (List.ne_nil_of_mem hgps)
        have hps1 : ps.length = 1 := by omega
        have hf2 : (groups.filter fun g => decide (g.length = 2)).length = 0 := by omega
        have hpc0 : pc = 0 := by omega
        have hpseq : ps = [[ft, ft]] := by
          obtain ⟨x, hx⟩ := List.length_eq_one.mp hps1
          have hgx := hgps
          rw [hx] at hgx
          rw [hx, List.mem_singleton.mp hgx]
        have hperm1 : (ms ++ ps).flatten.Perm (ft :: ft :: ms.flatten) := by
          rw [hpseq, List.flatten_append]
          simp only [List.flatten_cons, List.flatten_nil, List.append_nil]
          exact List.perm_append_comm
        have hrest : rest.Perm (ft :: ms.flatten) := by
          have h0 : (ft :: rest).Perm (ft :: ft :: ms.flatten) :=
            hperm0.symm.trans (hperm.trans hperm1)
          exact h0.cons_inv
        have hftrest : ft ∈ rest := hrest.mem_iff.mpr (List.mem_cons_self ..)
        have hcnt : 2 ≤ (ft :: rest).count ft := by
          rw [List.count_cons_self]
          have := List.count_pos_iff.mpr hftrest
          omega
        have herase : (rest.erase ft).Perm ms.flatten := by
          have := hrest.erase ft
          rwa [List.erase_cons_head] at this
        apply try_combinations_pair_intro hrem hg5 hsort hpc0 hcnt
        rw [List.erase_cons_head]
        refine ih _ _ _ ms [] ?_ ?_ hms (by simp) ?_ ?_ ?_ ?_ ?_
        · have e1 : (rest.erase ft).length = rest.length - 1 :=
            List.length_erase_of_mem hftrest
          omega
        · intro t ht
          exact hvalid t (hperm0.mem_iff.mpr (List.mem_cons_of_mem _
            (List.mem_of_mem_erase ht)))
        · simpa using herase
        · have hfe : (((groups ++ [[ft, ft]]).filter
              fun g => decide (g.length = 3)).length) =
              ((groups.filter fun g => decide (g.length = 3)).length) := by
            simp [List.filter_append]
          omega
        · have hfe : (((groups ++ [[ft, ft]]).filter
              fun g => decide (g.length = 2)).length) =
              ((groups.filter fun g => decide (g.length = 2)).length) + 1 := by
            simp [List.filter_append]
          simp only [List.length_nil]
          omega
        · have hfe : (((groups ++ [[ft, ft]]).filter
              fun g => decide (g.length = 2)).length) =
              ((groups.filter fun g => decide (g.length = 2)).length) + 1 := by
            simp [List.filter_append]
          omega
        · intro x hx
          rcases List.mem_append.mp hx with hx' | hx'
          · exact hglen x hx'
          · left
            simp only [List.mem_singleton] at hx'
            simp [hx']

/-- From a successful standard check, extract the specified partition. -/
theorem check_standard_win_sound {tiles : List Tile}
    (h : _check_standard_win tiles = true) : SpecStandardPartition tiles := by
  rw [_check_standard_win] at h
  obtain ⟨ns, hval, hperm, h3, h2⟩ := try_combinations_sound _ _ _ _ h
  simp only [List.nil_append] at h3 h2
  have hlens : ∀ g ∈ ns, g.length = 2 ∨ g.length = 3 := by
    intro g hg
    rcases hval g hg with hm | hp
    · exact Or.inr (spec_meld_length hm)
    · exact Or.inl (spec_pair_length hp)
  have hpartition := flatten_filter_partition (fun g => decide (g.length = 3)) ns
  have hfeq : (ns.filter fun g => !(decide (g.length = 3))) =
      (ns.filter fun g => decide (g.length = 2)) := by
    apply List.filter_congr
    intro g hg
    rcases hlens g hg with h2' | h3'
    · simp [h2']
    · simp [h3']
  rw [hfeq] at hpartition
  obtain ⟨p, hp⟩ := List.length_eq_one.mp h2
  refine ⟨ns.filter fun g => decide (g.length = 3), p, h3, ?_, ?_, ?_⟩
  · intro g hg
    have hgmem := List.mem_filter.mp hg
    rcases hval g hgmem.1 with hm | hpair
    · exact hm
    · exfalso
      have hl2 := spec_pair_length hpair
      have h3' := of_decide_eq_true hgmem.2
      omega
  · have hpmem : p ∈ ns.filter fun g => decide (g.length = 2) := by
      rw [hp]
      exact List.mem_cons_self ..
    have hpf := List.mem_filter.mp hpmem
    rcases hval p hpf.1 with hm | hpair
    · exfalso
      have hl3 := spec_meld_length hm
      have h2' := of_decide_eq_true hpf.2
      omega
    · exact hpair
  · have hfp : (ns.filter fun g => decide (g.length = 2)).flatten = p := by
      rw [hp]
      simp
    rw [hfp] at hpartition
    exact hperm.trans hpartition

/-- The backtracking finds every specified partition (over in-range
concrete tiles). -/
theorem check_standard_win_complete {tiles : List Tile}
    (hvalid : ∀ t ∈ tiles, t ∈ normal_tiles)
    (hpart : SpecStandardPartition tiles) : _check_standard_win tiles = true := by
  obtain ⟨melds, pair, hlen4, hmelds, hpair, hperm⟩ := hpart
  rw [_check_standard_win]
  refine try_combinations_complete (tiles.length + 1) tiles [] 0 melds [pair]
    (by omega) hvalid hmelds ?_ ?_ ?_ ?_ ?_ ?_
  · intro g hg
    rw [List.mem_singleton.mp hg]
    exact hpair
  · rw [List.flatten_append]
    simpa using hperm
  · simpa using hlen4
  · simp
  · simp
  · simp

/-- A successful standard check forces exactly 14 tiles
(4 melds of 3 plus one pair). -/
theorem check_standard_win_length {tiles : List Tile}
    (h : _check_standard_win tiles = true) : tiles.length = 14 := by
  obtain ⟨melds, pair, hlen4, hmelds, hpair, hperm⟩ := check_standard_win_sound h
  have h1 := hperm.length_eq
  rw [List.length_append, flatten_length_of_melds hmelds, hlen4,
    spec_pair_length hpair] at h1
  omega

/-- None of the three shape checkers can accept a collection whose size is
not 14. -/
theorem check_all_shapes_false_of_length {tiles : List Tile} (h : tiles.length ≠ 14) :
    (_check_standard_win tiles || _check_seven_pairs tiles ||
      _check_thirteen_orphans tiles) = false := by
  have hs : _check_standard_win tiles = false := by
    cases hc : _check_standard_win tiles
    · rfl
    · exact absurd (check_standard_win_length hc) h
  have hp : _check_seven_pairs tiles = false := by
    rw [_check_seven_pairs, if_pos h]
  have ho : _check_thirteen_orphans tiles = false := by
    rw [_check_thirteen_orphans, if_pos h]
  rw [hs, hp, ho]
  rfl

/-! ### Claims C2 and C9 -/

/-- C2: for every 14-tile collection of concrete tiles, the standard-shape
checker returns true iff the collection can be partitioned into exactly
four melds — each a triplet or a sequence (three same-suit tiles with
strictly consecutive ranks, honor tiles never forming a sequence) — plus
exactly one pair, with no tiles left over. -/
theorem C2_standard_win_iff_partition (tiles : List Tile)
    (_hlen : tiles.length = 14) (hvalid : ∀ t ∈ tiles, t ∈ normal_tiles) :
    _check_standard_win tiles = true ↔ SpecStandardPartition tiles :=
  ⟨check_standard_win_sound, check_standard_win_complete hvalid⟩

/-- Witness for C2 at the concrete collection 11123456789999s. -/
theorem C2_standard_win_iff_partition_witness :
    ([Tile.norm 1 Suit.s, Tile.norm 1 Suit.s, Tile.norm 1 Suit.s,
      Tile.norm 2 Suit.s, Tile.norm 3 Suit.s, Tile.norm 4 Suit.s,
      Tile.norm 5 Suit.s, Tile.norm 6 Suit.s, Tile.norm 7 Suit.s,
      Tile.norm 8 Suit.s, Tile.norm 9 Suit.s, Tile.norm 9 Suit.s,
      Tile.norm 9 Suit.s, Tile.norm 9 Suit.s] : List Tile).length = 14 ∧
    (∀ t ∈ ([Tile.norm 1 Suit.s, Tile.norm 1 Suit.s, Tile.norm 1 Suit.s,
      Tile.norm 2 Suit.s, Tile.norm 3 Suit.s, Tile.norm 4 Suit.s,
      Tile.norm 5 Suit.s, Tile.norm 6 Suit.s, Tile.norm 7 Suit.s,
      Tile.norm 8 Suit.s, Tile.norm 9 Suit.s, Tile.norm 9 Suit.s,
      Tile.norm 9 Suit.s, Tile.norm 9 Suit.s] : List Tile), t ∈ normal_tiles) ∧
    (_check_standard_win [Tile.norm 1 Suit.s, Tile.norm 1 Suit.s, Tile.norm 1 Suit.s,
      Tile.norm 2 Suit.s, Tile.norm 3 Suit.s, Tile.norm 4 Suit.s,
      Tile.norm 5 Suit.s, Tile.norm 6 Suit.s, Tile.norm 7 Suit.s,
      Tile.norm 8 Suit.s, Tile.norm 9 Suit.s, Tile.norm 9 Suit.s,
      Tile.norm 9 Suit.s, Tile.norm 9 Suit.s] = true ↔
      SpecStandardPartition [Tile.norm 1 Suit.s, Tile.norm 1 Suit.s, Tile.norm 1 Suit.s,
        Tile.norm 2 Suit.s, Tile.norm 3 Suit.s, Tile.norm 4 Suit.s,
        Tile.norm 5 Suit.s, Tile.norm 6 Suit.s, Tile.norm 7 Suit.s,
        Tile.norm 8 Suit.s, Tile.norm 9 Suit.s, Tile.norm 9 Suit.s,
        Tile.norm 9 Suit.s, Tile.norm 9 Suit.s]) :=
  ⟨by decide, by decide, C2_standard_win_iff_partition _ (by decide) (by decide)⟩

/-- Every member of a joker expansion has the length of the joker-free base
plus the (capped) number of substituted jokers. -/
theorem length_of_mem_joker_combinations {hand combo : List Tile}
    (hjc : ¬ hand.count Tile.j = 0)
    (hmem : combo ∈ generate_joker_combinations hand) :
    combo.length = (hand.length - hand.count Tile.j) +
      (if hand.count Tile.j > 4 then 4 else hand.count Tile.j) := by
  rw [generate_joker_combinations, if_neg hjc] at hmem
  rw [mem_py_dedup] at hmem
  obtain ⟨r, hr, hcombo⟩ := List.mem_map.mp hmem
  have hlenr := length_of_mem_joker_tuples hr
  rw [← hcombo, (sort_tiles_perm _).length_eq, List.length_append,
    length_filter_ne, hlenr]

/-- Core fact behind C9: with five or more wildcards in a 14-tile
collection, every expanded variant is shorter than 14 tiles, so the
winning-hand predicate is false. -/
theorem many_jokers_not_winning {tiles : List Tile} (hlen : tiles.length = 14)
    (hj : 5 ≤ tiles.count Tile.j) : is_winning_hand tiles = false := by
  rw [is_winning_hand, if_neg (by simp [hlen])]
  have hjmem : Tile.j ∈ tiles := List.count_pos_iff.mp (by omega)
  rw [if_neg (by simp [hjmem])]
  apply List.any_eq_false.mpr
  intro combo hcombo
  have hlenc := length_of_mem_joker_combinations (by omega) hcombo
  simp only [Bool.not_eq_true]
  apply check_all_shapes_false_of_length
  rw [hlenc, hlen]
  have hcle : tiles.count Tile.j ≤ 14 := hlen ▸ List.count_le_length ..
  rw [if_pos (by omega)]
  omega

/-- C9: a 14-tile collection holding five or more wildcards is never a
winning hand: the expansion strips all wildcards but substitutes at most
4 concrete tiles back, so every expanded variant is shorter than 14
tiles and no shape checker accepts it. -/
theorem C9_five_jokers_never_win (tiles : List Tile) (hlen : tiles.length = 14)
    (hj : 5 ≤ tiles.count Tile.j) : is_winning_hand tiles = false :=
  many_jokers_not_winning hlen hj

/-- Witness for C9 at five jokers plus the nine bamboo ranks. -/
theorem C9_five_jokers_never_win_witness :
    ([Tile.j, Tile.j, Tile.j, Tile.j, Tile.j,
      Tile.norm 1 Suit.s, Tile.norm 2 Suit.s, Tile.norm 3 Suit.s,
      Tile.norm 4 Suit.s, Tile.norm 5 Suit.s, Tile.norm 6 Suit.s,
      Tile.norm 7 Suit.s, Tile.norm 8 Suit.s, Tile.norm 9 Suit.s] :
        List Tile).length = 14 ∧
    5 ≤ ([Tile.j, Tile.j, Tile.j, Tile.j, Tile.j,
      Tile.norm 1 Suit.s, Tile.norm 2 Suit.s, Tile.norm 3 Suit.s,
      Tile.norm 4 Suit.s, Tile.norm 5 Suit.s, Tile.norm 6 Suit.s,
      Tile.norm 7 Suit.s, Tile.norm 8 Suit.s, Tile.norm 9 Suit.s] :
        List Tile).count Tile.j ∧
    is_winning_hand [Tile.j, Tile.j, Tile.j, Tile.j, Tile.j,
      Tile.norm 1 Suit.s, Tile.norm 2 Suit.s, Tile.norm 3 Suit.s,
      Tile.norm 4 Suit.s, Tile.norm 5 Suit.s, Tile.norm 6 Suit.s,
      Tile.norm 7 Suit.s, Tile.norm 8 Suit.s, Tile.norm 9 Suit.s] = false :=
  ⟨by decide, by decide, C9_five_jokers_never_win _ (by decide) (by decide)⟩

/-! ### The winning-tile set: membership characterization, C1 and C3 -/

/-- Membership in the loop result of find_winning_tiles: a tile is collected
iff it is one of the 35 iterated identities, passes the 4-copy guard
(joker exempt) and completes a winning 14-tile collection. -/
theorem mem_winning_filter {hand : List Tile} {t : Tile} :
    t ∈ winning_filter hand ↔
      t ∈ all_tiles ∧ (t = Tile.j ∨ hand.count t < 4) ∧
        is_winning_hand (hand ++ [t]) = true := by
  rw [winning_filter, List.mem_filter]
  simp only [Bool.and_eq_true, Bool.or_eq_true, decide_eq_true_eq, and_assoc]

/-- The same characterization through find_winning_tiles on a 13-tile
hand. -/
theorem mem_winning_tiles_iff {hand : List Tile} (hlen : hand.length = 13) {t : Tile} :
    t ∈ (find_winning_tiles hand).getD [] ↔
      t ∈ all_tiles ∧ (t = Tile.j ∨ hand.count t < 4) ∧
        is_winning_hand (hand ++ [t]) = true := by
  rw [find_winning_tiles, if_pos hlen, Option.getD_some]
  exact mem_winning_filter

/-- Putting a sorted substitution result in evidence as a member of the
joker expansion. -/
theorem combo_mem_generate {hand : List Tile} {r : List Tile}
    (hjc : ¬ hand.count Tile.j = 0)
    (hr : r ∈ joker_tuples (if hand.count Tile.j > 4 then 4 else hand.count Tile.j)) :
    sort_tiles ((hand.filter fun t => decide (t ≠ Tile.j)) ++ r) ∈
      generate_joker_combinations hand := by
  rw [generate_joker_combinations, if_neg hjc, mem_py_dedup]
  exact List.mem_map.mpr ⟨r, hr, rfl⟩

/-- A single accepted expansion makes is_winning_hand true. -/
theorem is_winning_via_combo {tiles combo : List Tile}
    (hlen : tiles.length = 14) (hjmem : Tile.j ∈ tiles)
    (hcombo : combo ∈ generate_joker_combinations tiles)
    (hwin : (_check_standard_win combo || _check_seven_pairs combo ||
      _check_thirteen_orphans combo) = true) :
    is_winning_hand tiles = true := by
  rw [is_winning_hand, if_neg (by simp [hlen]), if_neg (by simp [hjmem])]
  exact List.any_eq_true.mpr ⟨combo, hcombo, hwin⟩

/-- C1 (amended): for every 13-tile hand, the solver's result contains a
tile t iff t is one of the 35 iterated identities (34 concrete plus the
wildcard), t passes the 4-copy guard - concrete tiles with all four
copies already held are skipped, the wildcard is exempt - and appending
t yields a winning 14-tile collection; in particular the wildcard
identity DOES appear in the result whenever appending a wildcard wins. -/
theorem C1_winning_tiles_characterization (hand : List Tile)
    (hlen : hand.length = 13) (t : Tile) :
    t ∈ (find_winning_tiles hand).getD [] ↔
      t ∈ all_tiles ∧ (t = Tile.j ∨ hand.count t < 4) ∧
        is_winning_hand (hand ++ [t]) = true :=
  mem_winning_tiles_iff hlen

/-- Witness for C1 at the hand 1112345678999s and the wildcard. -/
theorem C1_winning_tiles_characterization_witness :
    ([Tile.norm 1 Suit.s, Tile.norm 1 Suit.s, Tile.norm 1 Suit.s,
      Tile.norm 2 Suit.s, Tile.norm 3 Suit.s, Tile.norm 4 Suit.s,
      Tile.norm 5 Suit.s, Tile.norm 6 Suit.s, Tile.norm 7 Suit.s,
      Tile.norm 8 Suit.s, Tile.norm 9 Suit.s, Tile.norm 9 Suit.s,
      Tile.norm 9 Suit.s] : List Tile).length = 13 ∧
    (Tile.j ∈ (find_winning_tiles [Tile.norm 1 Suit.s, Tile.norm 1 Suit.s,
        Tile.norm 1 Suit.s, Tile.norm 2 Suit.s, Tile.norm 3 Suit.s,
        Tile.norm 4 Suit.s, Tile.norm 5 Suit.s, Tile.norm 6 Suit.s,
        Tile.norm 7 Suit.s, Tile.norm 8 Suit.s, Tile.norm 9 Suit.s,
        Tile.norm 9 Suit.s, Tile.norm 9 Suit.s]).getD [] ↔
      Tile.j ∈ all_tiles ∧ (Tile.j = Tile.j ∨
          ([Tile.norm 1 Suit.s, Tile.norm 1 Suit.s, Tile.norm 1 Suit.s,
            Tile.norm 2 Suit.s, Tile.norm 3 Suit.s, Tile.norm 4 Suit.s,
            Tile.norm 5 Suit.s, Tile.norm 6 Suit.s, Tile.norm 7 Suit.s,
            Tile.norm 8 Suit.s, Tile.norm 9 Suit.s, Tile.norm 9 Suit.s,
            Tile.norm 9 Suit.s] : List Tile).count Tile.j < 4) ∧
        is_winning_hand ([Tile.norm 1 Suit.s, Tile.norm 1 Suit.s, Tile.norm 1 Suit.s,
          Tile.norm 2 Suit.s, Tile.norm 3 Suit.s, Tile.norm 4 Suit.s,
          Tile.norm 5 Suit.s, Tile.norm 6 Suit.s, Tile.norm 7 Suit.s,
          Tile.norm 8 Suit.s, Tile.norm 9 Suit.s, Tile.norm 9 Suit.s,
          Tile.norm 9 Suit.s] ++ [Tile.j]) = true) :=
  ⟨by decide, C1_winning_tiles_characterization _ (by decide) Tile.j⟩

/-- C1, counterexample to the claim as stated: for the 13-tile concrete hand
1112345678999s, the wildcard identity appears in the solver's result set
(the loop iterates over all_tiles, which includes the joker, and the
joker is exempt from the 4-copy skip), contradicting the claim that
every element is one of the 34 concrete identities and the wildcard
never appears. -/
theorem C1_wildcard_in_result :
    Tile.j ∈ (find_winning_tiles [Tile.norm 1 Suit.s, Tile.norm 1 Suit.s,
      Tile.norm 1 Suit.s, Tile.norm 2 Suit.s, Tile.norm 3 Suit.s,
      Tile.norm 4 Suit.s, Tile.norm 5 Suit.s, Tile.norm 6 Suit.s,
      Tile.norm 7 Suit.s, Tile.norm 8 Suit.s, Tile.norm 9 Suit.s,
      Tile.norm 9 Suit.s, Tile.norm 9 Suit.s]).getD [] := by
  apply (mem_winning_tiles_iff (by decide)).mpr
  refine ⟨by decide, Or.inl rfl, ?_⟩
  apply is_winning_via_combo (by decide) (by decide)
    (@combo_mem_generate _ [Tile.norm 9 Suit.s] (by decide) (by decide))
  decide

/-- C3 (amended): for every wildcard-free 13-tile hand H and every concrete
candidate t of which H holds fewer than 4 copies, t is in the solver's
winning-tile set iff appending t to H yields a collection accepted by
is_winning_hand (equivalently, by one of the three shape checkers, as
the appended hand is wildcard-free).  For candidates already held 4
times the equivalence fails: the solver skips them (see the
counterexample). -/
theorem C3_membership_iff_win (hand : List Tile) (hlen : hand.length = 13)
    (_hjf : Tile.j ∉ hand) (t : Tile) (ht : t ∈ normal_tiles)
    (hcnt : hand.count t < 4) :
    t ∈ (find_winning_tiles hand).getD [] ↔
      is_winning_hand (hand ++ [t]) = true := by
  rw [mem_winning_tiles_iff hlen]
  constructor
  · rintro ⟨_, _, hw⟩
    exact hw
  · intro hw
    exact ⟨List.mem_append_left _ ht, Or.inr hcnt, hw⟩

/-- Witness for C3 at the hand 1112345678999s and candidate 9s. -/
theorem C3_membership_iff_win_witness :
    ([Tile.norm 1 Suit.s, Tile.norm 1 Suit.s, Tile.norm 1 Suit.s,
      Tile.norm 2 Suit.s, Tile.norm 3 Suit.s, Tile.norm 4 Suit.s,
      Tile.norm 5 Suit.s, Tile.norm 6 Suit.s, Tile.norm 7 Suit.s,
      Tile.norm 8 Suit.s, Tile.norm 9 Suit.s, Tile.norm 9 Suit.s,
      Tile.norm 9 Suit.s] : List Tile).length = 13 ∧
    (Tile.norm 9 Suit.s ∈ (find_winning_tiles [Tile.norm 1 Suit.s,
        Tile.norm 1 Suit.s, Tile.norm 1 Suit.s, Tile.norm 2 Suit.s,
        Tile.norm 3 Suit.s, Tile.norm 4 Suit.s, Tile.norm 5 Suit.s,
        Tile.norm 6 Suit.s, Tile.norm 7 Suit.s, Tile.norm 8 Suit.s,
        Tile.norm 9 Suit.s, Tile.norm 9 Suit.s, Tile.norm 9 Suit.s]).getD [] ↔
      is_winning_hand ([Tile.norm 1 Suit.s, Tile.norm 1 Suit.s, Tile.norm 1 Suit.s,
        Tile.norm 2 Suit.s, Tile.norm 3 Suit.s, Tile.norm 4 Suit.s,
        Tile.norm 5 Suit.s, Tile.norm 6 Suit.s, Tile.norm 7 Suit.s,
        Tile.norm 8 Suit.s, Tile.norm 9 Suit.s, Tile.norm 9 Suit.s,
        Tile.norm 9 Suit.s] ++ [Tile.norm 9 Suit.s]) = true) :=
  ⟨by decide, C3_membership_iff_win _ (by decide) (by decide) _ (by decide) (by decide)⟩

/-- C3, counterexample to the claim as stated: for the wildcard-free 13-tile
hand 11112345679 99s holding four copies of 1s, appending one more 1s
yields a winning 14-tile collection (triplet 111 + pair 11 + 234 + 567 +
999), yet 1s is NOT in the solver's winning-tile set because the solver
skips any concrete candidate of which the hand already holds 4 copies.
So the claimed equivalence does not hold "with no restriction on how
many copies of t the hand already holds". -/
theorem C3_four_copies_skipped :
    ([Tile.norm 1 Suit.s, Tile.norm 1 Suit.s, Tile.norm 1 Suit.s,
      Tile.norm 1 Suit.s, Tile.norm 2 Suit.s, Tile.norm 3 Suit.s,
      Tile.norm 4 Suit.s, Tile.norm 5 Suit.s, Tile.norm 6 Suit.s,
      Tile.norm 7 Suit.s, Tile.norm 9 Suit.s, Tile.norm 9 Suit.s,
      Tile.norm 9 Suit.s] : List Tile).length = 13 ∧
    Tile.j ∉ ([Tile.norm 1 Suit.s, Tile.norm 1 Suit.s, Tile.norm 1 Suit.s,
      Tile.norm 1 Suit.s, Tile.norm 2 Suit.s, Tile.norm 3 Suit.s,
      Tile.norm 4 Suit.s, Tile.norm 5 Suit.s, Tile.norm 6 Suit.s,
      Tile.norm 7 Suit.s, Tile.norm 9 Suit.s, Tile.norm 9 Suit.s,
      Tile.norm 9 Suit.s] : List Tile) ∧
    is_winning_hand ([Tile.norm 1 Suit.s, Tile.norm 1 Suit.s, Tile.norm 1 Suit.s,
      Tile.norm 1 Suit.s, Tile.norm 2 Suit.s, Tile.norm 3 Suit.s,
      Tile.norm 4 Suit.s, Tile.norm 5 Suit.s, Tile.norm 6 Suit.s,
      Tile.norm 7 Suit.s, Tile.norm 9 Suit.s, Tile.norm 9 Suit.s,
      Tile.norm 9 Suit.s] ++ [Tile.norm 1 Suit.s]) = true ∧
    Tile.norm 1 Suit.s ∉ (find_winning_tiles [Tile.norm 1 Suit.s,
      Tile.norm 1 Suit.s, Tile.norm 1 Suit.s, Tile.norm 1 Suit.s,
      Tile.norm 2 Suit.s, Tile.norm 3 Suit.s, Tile.norm 4 Suit.s,
      Tile.norm 5 Suit.s, Tile.norm 6 Suit.s, Tile.norm 7 Suit.s,
      Tile.norm 9 Suit.s, Tile.norm 9 Suit.s, Tile.norm 9 Suit.s]).getD [] := by
  refine ⟨by decide, by decide, by decide, ?_⟩
  intro hmem
  obtain ⟨_, hor, _⟩ := (mem_winning_tiles_iff (by decide)).mp hmem
  rcases hor with hj | hlt
  · exact Tile.noConfusion hj
  · have hc : ([Tile.norm 1 Suit.s, Tile.norm 1 Suit.s, Tile.norm 1 Suit.s,
      Tile.norm 1 Suit.s, Tile.norm 2 Suit.s, Tile.norm 3 Suit.s,
      Tile.norm 4 Suit.s, Tile.norm 5 Suit.s, Tile.norm 6 Suit.s,
      Tile.norm 7 Suit.s, Tile.norm 9 Suit.s, Tile.norm 9 Suit.s,
      Tile.norm 9 Suit.s] : List Tile).count (Tile.norm 1 Suit.s) = 4 := by decide
    omega

/-! ### Claims C7 and C8: the analyze-level error checks -/

/-- C7: for every parsed 13-tile hand over the tile universe, (a) if some
concrete identity appears more than 4 times, the analysis rejects the
hand with the CopyLimitExceeded outcome instead of computing a
winning-tile set, regardless of how many wildcards are present, and
(b) the wildcard itself is exempt: when no concrete identity exceeds 4
copies the analysis proceeds to the winning-tile computation no matter
how many wildcards the hand holds. -/
theorem C7_copy_limit_rejection :
    (∀ hand : List Tile, hand.length = 13 → (∀ t ∈ hand, t ∈ all_tiles) →
      (∃ c, c ≠ Tile.j ∧ 4 < hand.count c) →
      ∃ over, analyze_parsed hand = AnalysisResult.copyLimitExceeded over hand ∧
        over ≠ []) ∧
    (∀ hand : List Tile, hand.length = 13 → (∀ t ∈ hand, t ∈ all_tiles) →
      (∀ c, c ≠ Tile.j → hand.count c ≤ 4) →
      ∃ w ting, analyze_parsed hand = AnalysisResult.ok hand w ting) := by
  constructor
  · rintro hand hlen hvalid ⟨c, hcj, hcnt⟩
    have hinv : hand.filter (fun t => !(all_tiles.contains t)) = [] := by
      apply List.filter_eq_nil_iff.mpr
      intro t ht
      simp [hvalid t ht]
    have hcmem : c ∈ hand := List.count_pos_iff.mp (by omega)
    have hover : c ∈ (py_dedup hand).filter fun t =>
        decide (t ≠ Tile.j) && decide (4 < hand.count t) := by
      apply List.mem_filter.mpr
      refine ⟨mem_py_dedup.mpr hcmem, ?_⟩
      simp [hcj, hcnt]
    have hovne : ((py_dedup hand).filter fun t =>
        decide (t ≠ Tile.j) && decide (4 < hand.count t)) ≠ [] :=
      List.ne_nil_of_mem hover
    rw [analyze_parsed, if_neg (by simp [hlen]), if_neg (fun h => h hinv),
      if_pos hovne]
    exact ⟨_, rfl, hovne⟩
  · intro hand hlen hvalid hcap
    have hinv : hand.filter (fun t => !(all_tiles.contains t)) = [] := by
      apply List.filter_eq_nil_iff.mpr
      intro t ht
      simp [hvalid t ht]
    have hov : ((py_dedup hand).filter fun t =>
        decide (t ≠ Tile.j) && decide (4 < hand.count t)) = [] := by
      apply List.filter_eq_nil_iff.mpr
      intro t _
      by_cases htj : t = Tile.j
      · simp [htj]
      · have := hcap t htj
        simp [htj]
        omega
    rw [analyze_parsed, if_neg (by simp [hlen]), if_neg (fun h => h hinv),
      if_neg (fun h => h hov)]
    exact ⟨_, _, rfl⟩

/-- Witness for C7: a hand with five 1s and eight wildcards is rejected with
the copy-limit outcome; a hand of thirteen wildcards (no concrete
identity over the cap) reaches the winning-tile computation. -/
theorem C7_copy_limit_rejection_witness :
    (∃ over, analyze_parsed [Tile.norm 1 Suit.s, Tile.norm 1 Suit.s,
      Tile.norm 1 Suit.s, Tile.norm 1 Suit.s, Tile.norm 1 Suit.s,
      Tile.j, Tile.j, Tile.j, Tile.j, Tile.j, Tile.j, Tile.j, Tile.j] =
        AnalysisResult.copyLimitExceeded over [Tile.norm 1 Suit.s,
          Tile.norm 1 Suit.s, Tile.norm 1 Suit.s, Tile.norm 1 Suit.s,
          Tile.norm 1 Suit.s, Tile.j, Tile.j, Tile.j, Tile.j, Tile.j,
          Tile.j, Tile.j, Tile.j] ∧ over ≠ []) ∧
    (∃ w ting, analyze_parsed (List.replicate 13 Tile.j) =
      AnalysisResult.ok (List.replicate 13 Tile.j) w ting) :=
  ⟨C7_copy_limit_rejection.1 _ (by decide) (by decide)
      ⟨Tile.norm 1 Suit.s, by decide, by decide⟩,
    C7_copy_limit_rejection.2 _ (by decide) (by decide)
      (fun c hc => by
        rw [List.count_eq_zero.mpr]
        · omega
        · intro hmem
          exact hc (List.eq_of_mem_replicate hmem))⟩

/-- C8 (amended): parse_hand itself never fails - an out-of-range digit
group parses into a tile with that out-of-range rank - and the analysis
call then rejects any 13-tile parse containing such a tile with the
InvalidTile outcome (inputs that also fail the 13-count check are
rejected as WrongTileCount first; see the counterexample). -/
theorem C8_invalid_tile_rejection (s : List Char)
    (hlen : (parse_hand s).length = 13)
    (hbad : ∃ t ∈ parse_hand s, t ∉ all_tiles) :
    ∃ bad, analyze_hand s = AnalysisResult.invalidTile bad (parse_hand s) ∧
      bad ≠ [] := by
  obtain ⟨t, htmem, htbad⟩ := hbad
  have htf : t ∈ (parse_hand s).filter fun t => !(all_tiles.contains t) := by
    apply List.mem_filter.mpr
    exact ⟨htmem, by simp [htbad]⟩
  have hne := List.ne_nil_of_mem htf
  rw [analyze_hand, analyze_parsed, if_neg (by simp [hlen]), if_pos hne]
  exact ⟨_, rfl, hne⟩

/-- Witness for C8 at the 13-tile input 0s123456789s123m containing the
out-of-range digit 0 for family s. -/
theorem C8_invalid_tile_rejection_witness :
    (parse_hand ['0', 's', '1', '2', '3', '4', '5', '6', '7', '8', '9', 's',
      '1', '2', '3', 'm']).length = 13 ∧
    (∃ t ∈ parse_hand ['0', 's', '1', '2', '3', '4', '5', '6', '7', '8', '9',
      's', '1', '2', '3', 'm'], t ∉ all_tiles) ∧
    (∃ bad, analyze_hand ['0', 's', '1', '2', '3', '4', '5', '6', '7', '8',
      '9', 's', '1', '2', '3', 'm'] =
      AnalysisResult.invalidTile bad (parse_hand ['0', 's', '1', '2', '3',
        '4', '5', '6', '7', '8', '9', 's', '1', '2', '3', 'm']) ∧ bad ≠ []) :=
  ⟨by decide, ⟨Tile.norm 0 Suit.s, by decide, by decide⟩,
    C8_invalid_tile_rejection _ (by decide)
      ⟨Tile.norm 0 Suit.s, by decide, by decide⟩⟩

/-- C8, counterexample to the claim as stated: on the input 0s - a digit
group whose digit 0 is out of range for family s - parsing does NOT
fail: parse_hand produces the out-of-range tile 0s, and the analysis of
this input reports the wrong-count failure (1 tile instead of 13), not
InvalidTile.  The InvalidTile outcome only arises for 13-tile parses. -/
theorem C8_zero_rank_parses :
    parse_hand ['0', 's'] = [Tile.norm 0 Suit.s] ∧
    analyze_hand ['0', 's'] = AnalysisResult.wrongCount 1 [Tile.norm 0 Suit.s] ∧
    is_invalid_tile_result (analyze_hand ['0', 's']) = false :=
  ⟨by decide, by decide, by decide⟩

/-! ### Permutation invariance of the winning-hand predicate -/

theorem try_combinations_perm {fuel : Nat} {r₁ r₂ : List Tile}
    (groups : List (List Tile)) (pc : Nat) (hp : r₁.Perm r₂) :
    _try_combinations fuel r₁ groups pc = _try_combinations fuel r₂ groups pc := by
  cases fuel with
  | zero => rfl
  | succ fuel =>
    rw [_try_combinations, _try_combinations]
    have hie : r₁.isEmpty = r₂.isEmpty := by
      have := hp.length_eq
      cases r₁ <;> cases r₂ <;> simp_all
    have hsort : sort_tiles r₁ = sort_tiles r₂ := sort_tiles_eq_of_perm hp
    rw [hie, hsort]

theorem check_standard_win_perm {t₁ t₂ : List Tile} (hp : t₁.Perm t₂) :
    _check_standard_win t₁ = _check_standard_win t₂ := by
  rw [_check_standard_win, _check_standard_win, hp.length_eq,
    try_combinations_perm [] 0 hp]

theorem check_seven_pairs_perm {t₁ t₂ : List Tile} (hp : t₁.Perm t₂) :
    _check_seven_pairs t₁ = _check_seven_pairs t₂ := by
  rw [_check_seven_pairs, _check_seven_pairs, hp.length_eq]
  by_cases hl : t₂.length ≠ 14
  · rw [if_pos hl, if_pos hl]
  · rw [if_neg hl, if_neg hl]
    have hd : (py_dedup t₁).Perm (py_dedup t₂) := by
      apply (List.perm_ext_iff_of_nodup (py_dedup_nodup _) (py_dedup_nodup _)).mpr
      intro a
      rw [mem_py_dedup, mem_py_dedup]
      exact hp.mem_iff
    have hmap : ((py_dedup t₁).map fun t => t₁.count t).Perm
        ((py_dedup t₂).map fun t => t₂.count t) := by
      have h1 : ((py_dedup t₁).map fun t => t₁.count t) =
          ((py_dedup t₁).map fun t => t₂.count t) :=
        List.map_congr_left fun a _ => hp.count_eq a
      rw [h1]
      exact hd.map _
    rw [(hmap.filter _).length_eq, hmap.sum_eq]

theorem orphan_count_loop_congr {t₁ t₂ : List Tile} (hp : t₁.Perm t₂) :
    ∀ (l : List Tile) (pc sc : Nat),
      orphan_count_loop t₁ l pc sc = orphan_count_loop t₂ l pc sc := by
  intro l
  induction l with
  | nil => intro pc sc; rfl
  | cons t ts ih =>
    intro pc sc
    rw [orphan_count_loop, orphan_count_loop, hp.count_eq t]
    by_cases h2 : List.count t t₂ = 2
    · rw [if_pos h2, if_pos h2, ih]
    · rw [if_neg h2, if_neg h2]
      by_cases h1 : List.count t t₂ = 1
      · rw [if_pos h1, if_pos h1, ih]
      · rw [if_neg h1, if_neg h1]

theorem check_thirteen_orphans_perm {t₁ t₂ : List Tile} (hp : t₁.Perm t₂) :
    _check_thirteen_orphans t₁ = _check_thirteen_orphans t₂ := by
  have hall : (t₁.all fun t => terminal_honor_tiles.contains t) =
      (t₂.all fun t => terminal_honor_tiles.contains t) := by
    apply Bool.eq_iff_iff.mpr
    simp only [List.all_eq_true]
    constructor
    · intro h t ht
      exact h t (hp.mem_iff.mpr ht)
    · intro h t ht
      exact h t (hp.mem_iff.mp ht)
  rw [_check_thirteen_orphans, _check_thirteen_orphans, hp.length_eq, hall,
    orphan_count_loop_congr hp]

theorem generate_joker_combinations_perm {t₁ t₂ : List Tile}
    (hp : t₁.Perm t₂) (hj : ¬ List.count Tile.j t₂ = 0) :
    generate_joker_combinations t₁ = generate_joker_combinations t₂ := by
  rw [generate_joker_combinations, generate_joker_combinations, hp.count_eq]
  rw [if_neg hj, if_neg hj]
  congr 1
  apply List.map_congr_left
  intro r _
  exact sort_tiles_eq_of_perm ((hp.filter _).append_right r)

theorem is_winning_hand_perm {t₁ t₂ : List Tile} (hp : t₁.Perm t₂) :
    is_winning_hand t₁ = is_winning_hand t₂ := by
  rw [is_winning_hand, is_winning_hand, hp.length_eq]
  by_cases hl : t₂.length ≠ 14
  · rw [if_pos hl, if_pos hl]
  · rw [if_neg hl, if_neg hl]
    have hcont : t₁.contains Tile.j = t₂.contains Tile.j := by
      apply Bool.eq_iff_iff.mpr
      simp [hp.mem_iff]
    rw [hcont]
    cases hc : t₂.contains Tile.j with
    | false =>
      simp only [hc, Bool.not_false, if_true]
      rw [check_standard_win_perm hp, check_seven_pairs_perm hp,
        check_thirteen_orphans_perm hp]
    | true =>
      simp only [hc, Bool.not_true, Bool.false_eq_true, if_false]
      have hjm : Tile.j ∈ t₂ := by simpa using hc
      have hcp := List.count_pos_iff.mpr hjm
      have hgen := generate_joker_combinations_perm hp (by omega)
      rw [hgen]

/-! ### Lifting a win through a concrete-to-wildcard replacement -/

/-- Replacing one concrete tile of a winning 14-tile collection by a
wildcard preserves the win, provided the result stays within the
4-wildcard expansion cap: the new wildcard can be substituted back by
the removed tile. -/
theorem is_winning_lift_joker {X : List Tile} {c : Tile}
    (hcX : c ∈ X) (hcn : c ∈ normal_tiles) (hjcap : X.count Tile.j ≤ 3)
    (hwin : is_winning_hand X = true) :
    is_winning_hand (Tile.j :: X.erase c) = true := by
  have hlen : X.length = 14 := by
    by_contra hne
    rw [is_winning_hand, if_pos hne] at hwin
    exact Bool.noConfusion hwin
  have hcj : ¬ c = Tile.j := by
    intro hc
    rw [hc] at hcn
    revert hcn
    decide
  have hlen' : (Tile.j :: X.erase c).length = 14 := by
    rw [List.length_cons, List.length_erase_of_mem hcX]
    omega
  have hcnt' : (Tile.j :: X.erase c).count Tile.j = X.count Tile.j + 1 := by
    rw [List.count_cons_self, List.count_erase_of_ne (fun h => hcj h.symm)]
  have hXp : X.Perm (c :: X.erase c) := List.perm_cons_erase hcX
  have hbase' : ((Tile.j :: X.erase c).filter fun t => decide (t ≠ Tile.j)) =
      ((X.erase c).filter fun t => decide (t ≠ Tile.j)) := by
    rw [List.filter_cons, if_neg (by simp)]
  have hjc' : ¬ (Tile.j :: X.erase c).count Tile.j = 0 := by omega
  by_cases hjc : X.count Tile.j = 0
  · -- the winning collection is joker-free; substitute the new joker by c
    have hjmX : Tile.j ∉ X := List.count_eq_zero.mp hjc
    rw [is_winning_hand, if_neg (by simp [hlen]), if_pos (by simp [hjmX])] at hwin
    have hr : [c] ∈ joker_tuples (if (Tile.j :: X.erase c).count Tile.j > 4 then 4
        else (Tile.j :: X.erase c).count Tile.j) := by
      have h1 : (if (Tile.j :: X.erase c).count Tile.j > 4 then 4
          else (Tile.j :: X.erase c).count Tile.j) = 1 := by
        rw [hcnt', hjc]
        decide
      rw [h1]
      exact mem_joker_tuples_of fun x hx => by
        rw [List.mem_singleton.mp hx]
        exact hcn
    have hcmem := combo_mem_generate hjc' hr
    have hef : ((X.erase c).filter fun t => decide (t ≠ Tile.j)) = X.erase c := by
      apply List.filter_eq_self.mpr
      intro a ha
      have hmem : a ∈ X := List.mem_of_mem_erase ha
      have haj : a ≠ Tile.j := fun h => hjmX (h ▸ hmem)
      simp [haj]
    have hcombo_perm : (sort_tiles (((Tile.j :: X.erase c).filter
        fun t => decide (t ≠ Tile.j)) ++ [c])).Perm X := by
      rw [hbase', hef]
      refine (sort_tiles_perm _).trans ?_
      exact List.perm_append_comm.trans hXp.symm
    apply is_winning_via_combo hlen' (List.mem_cons_self ..) hcmem
    rw [check_standard_win_perm hcombo_perm, check_seven_pairs_perm hcombo_perm,
      check_thirteen_orphans_perm hcombo_perm]
    exact hwin
  · -- X already holds jokers; extend its winning substitution by c
    have hjmX : Tile.j ∈ X := List.count_pos_iff.mp (by omega)
    rw [is_winning_hand, if_neg (by simp [hlen]), if_neg (by simp [hjmX])] at hwin
    obtain ⟨combo, hcmem, hcwin⟩ := List.any_eq_true.mp hwin
    rw [generate_joker_combinations, if_neg hjc, mem_py_dedup] at hcmem
    obtain ⟨r, hr, hceq⟩ := List.mem_map.mp hcmem
    rw [if_neg (by omega)] at hr
    have hr'' : (c :: r) ∈ joker_tuples (if (Tile.j :: X.erase c).count Tile.j > 4
        then 4 else (Tile.j :: X.erase c).count Tile.j) := by
      rw [if_neg (by omega), hcnt']
      exact cons_mem_joker_tuples hcn hr
    have hcmem' := combo_mem_generate hjc' hr''
    have hbperm : (X.filter fun t => decide (t ≠ Tile.j)).Perm
        (c :: ((X.erase c).filter fun t => decide (t ≠ Tile.j))) := by
      have := hXp.filter fun t => decide (t ≠ Tile.j)
      rwa [List.filter_cons, if_pos (by simp [hcj])] at this
    have hcombo_eq : sort_tiles (((Tile.j :: X.erase c).filter
        fun t => decide (t ≠ Tile.j)) ++ (c :: r)) = combo := by
      rw [hbase', ← hceq]
      apply sort_tiles_eq_of_perm
      have h1 : (((X.erase c).filter fun t => decide (t ≠ Tile.j)) ++ (c :: r)).Perm
          (c :: (((X.erase c).filter fun t => decide (t ≠ Tile.j)) ++ r)) :=
        List.perm_middle
      refine h1.trans ?_
      exact (hbperm.append_right r).symm
    apply is_winning_via_combo hlen' (List.mem_cons_self ..) hcmem'
    rw [hcombo_eq]
    exact hcwin

theorem filter_sublist_mono {α : Type} {p q : α → Bool}
    (h : ∀ a, p a = true → q a = true) :
    ∀ l : List α, (l.filter p).Sublist (l.filter q) := by
  intro l
  induction l with
  | nil => simp
  | cons x xs ih =>
    by_cases hp : p x = true
    · rw [List.filter_cons, if_pos hp, List.filter_cons, if_pos (h x hp)]
      exact ih.cons₂ x
    · rw [List.filter_cons, if_neg hp, List.filter_cons]
      by_cases hq : q x = true
      · rw [if_pos hq]
        exact ih.cons x
      · rw [if_neg hq]
        exact ih

/-! ### Claim C4: wildcard monotonicity -/

/-- C4 (amended): for every 13-tile hand holding at most 2 wildcards,
replacing one copy of a concrete tile c by a wildcard never shrinks the
winning-tile set - indeed every tile of the original winning set stays
winning, because each candidate collection then holds at most 4
wildcards and the new wildcard can be substituted back by c.  With 3 or
more wildcards already in the hand the property fails (see the
counterexample, where a 4-wildcard hand loses its entire winning set to
the expansion cap). -/
theorem C4_wildcard_replacement_monotone (hand : List Tile) (c : Tile)
    (hand' : List Tile) (hlen : hand.length = 13) (hc : c ∈ hand)
    (hcn : c ∈ normal_tiles) (hjcap : hand.count Tile.j ≤ 2)
    (hrepl : hand'.Perm (Tile.j :: hand.erase c)) :
    winning_count hand ≤ winning_count hand' := by
  have hlen' : hand'.length = 13 := by
    rw [hrepl.length_eq, List.length_cons, List.length_erase_of_mem hc]
    omega
  rw [winning_count, winning_count, find_winning_tiles, find_winning_tiles,
    if_pos hlen, if_pos hlen', Option.getD_some, Option.getD_some]
  have hwf : winning_filter hand' = winning_filter (Tile.j :: hand.erase c) := by
    apply List.filter_congr
    intro t _
    rw [hrepl.count_eq, is_winning_hand_perm (hrepl.append_right [t])]
  rw [hwf]
  apply List.Sublist.length_le
  apply filter_sublist_mono
  intro t hpt
  simp only [Bool.and_eq_true, Bool.or_eq_true, decide_eq_true_eq] at hpt ⊢
  obtain ⟨hguard, hwin⟩ := hpt
  constructor
  · by_cases htj : t = Tile.j
    · exact Or.inl htj
    · right
      rcases hguard with hj | hlt
      · exact absurd hj htj
      · rw [List.count_cons_of_ne (fun h => htj h)]
        have := (List.erase_sublist c hand).count_le t
        omega
  · have hc' : c ∈ hand ++ [t] := List.mem_append_left _ hc
    have hcap' : (hand ++ [t]).count Tile.j ≤ 3 := by
      rw [List.count_append]
      have hct : List.count Tile.j [t] ≤ 1 := List.count_le_length ..
      omega
    have hlift := is_winning_lift_joker hc' hcn hcap' hwin
    have heq : (hand ++ [t]).erase c = hand.erase c ++ [t] :=
      List.erase_append_left _ hc
    rw [heq] at hlift
    exact hlift

/-- Witness for C4 at a concrete wildcard-free 13-tile hand, replacing its
copy of 1m. -/
theorem C4_wildcard_replacement_monotone_witness :
    ([Tile.norm 1 Suit.m, Tile.norm 2 Suit.m, Tile.norm 3 Suit.m,
      Tile.norm 4 Suit.m, Tile.norm 5 Suit.m, Tile.norm 6 Suit.m,
      Tile.norm 7 Suit.m, Tile.norm 8 Suit.m, Tile.norm 9 Suit.m,
      Tile.norm 1 Suit.p, Tile.norm 2 Suit.p, Tile.norm 3 Suit.p,
      Tile.norm 4 Suit.p] : List Tile).length = 13 ∧
    Tile.norm 1 Suit.m ∈ ([Tile.norm 1 Suit.m, Tile.norm 2 Suit.m,
      Tile.norm 3 Suit.m, Tile.norm 4 Suit.m, Tile.norm 5 Suit.m,
      Tile.norm 6 Suit.m, Tile.norm 7 Suit.m, Tile.norm 8 Suit.m,
      Tile.norm 9 Suit.m, Tile.norm 1 Suit.p, Tile.norm 2 Suit.p,
      Tile.norm 3 Suit.p, Tile.norm 4 Suit.p] : List Tile) ∧
    winning_count [Tile.norm 1 Suit.m, Tile.norm 2 Suit.m, Tile.norm 3 Suit.m,
      Tile.norm 4 Suit.m, Tile.norm 5 Suit.m, Tile.norm 6 Suit.m,
      Tile.norm 7 Suit.m, Tile.norm 8 Suit.m, Tile.norm 9 Suit.m,
      Tile.norm 1 Suit.p, Tile.norm 2 Suit.p, Tile.norm 3 Suit.p,
      Tile.norm 4 Suit.p] ≤
      winning_count (Tile.j :: ([Tile.norm 1 Suit.m, Tile.norm 2 Suit.m,
        Tile.norm 3 Suit.m, Tile.norm 4 Suit.m, Tile.norm 5 Suit.m,
        Tile.norm 6 Suit.m, Tile.norm 7 Suit.m, Tile.norm 8 Suit.m,
        Tile.norm 9 Suit.m, Tile.norm 1 Suit.p, Tile.norm 2 Suit.p,
        Tile.norm 3 Suit.p, Tile.norm 4 Suit.p] : List Tile).erase
          (Tile.norm 1 Suit.m)) :=
  ⟨by decide, by decide,
    C4_wildcard_replacement_monotone _ _ _ (by decide) (by decide) (by decide)
      (by decide) (List.Perm.refl _)⟩

/-- C4, counterexample to the claim as stated: the 13-tile hand
23456788 8s jjjj (four wildcards) has a non-empty winning-tile set (for
example 9s completes it, substituting the wildcards by 1s 1s 9s 9s to
reach the standard shape 11s 234s 567s 888s 999s), but after replacing
its concrete tile 8s by a fifth wildcard EVERY candidate collection
holds five or more wildcards, the expansion cap of 4 leaves every
variant short of 14 tiles, and the winning-tile set collapses to the
empty set - strictly smaller than before. -/
theorem C4_five_wildcards_shrink :
    winning_count (Tile.j :: ([Tile.norm 2 Suit.s, Tile.norm 3 Suit.s,
      Tile.norm 4 Suit.s, Tile.norm 5 Suit.s, Tile.norm 6 Suit.s,
      Tile.norm 7 Suit.s, Tile.norm 8 Suit.s, Tile.norm 8 Suit.s,
      Tile.norm 8 Suit.s, Tile.j, Tile.j, Tile.j, Tile.j] : List Tile).erase
        (Tile.norm 8 Suit.s)) <
    winning_count [Tile.norm 2 Suit.s, Tile.norm 3 Suit.s,
      Tile.norm 4 Suit.s, Tile.norm 5 Suit.s, Tile.norm 6 Suit.s,
      Tile.norm 7 Suit.s, Tile.norm 8 Suit.s, Tile.norm 8 Suit.s,
      Tile.norm 8 Suit.s, Tile.j, Tile.j, Tile.j, Tile.j] := by
  have hzero : winning_filter (Tile.j :: ([Tile.norm 2 Suit.s, Tile.norm 3 Suit.s,
      Tile.norm 4 Suit.s, Tile.norm 5 Suit.s, Tile.norm 6 Suit.s,
      Tile.norm 7 Suit.s, Tile.norm 8 Suit.s, Tile.norm 8 Suit.s,
      Tile.norm 8 Suit.s, Tile.j, Tile.j, Tile.j, Tile.j] : List Tile).erase
        (Tile.norm 8 Suit.s)) = [] := by
    apply List.filter_eq_nil_iff.mpr
    intro t _
    have hwlen : ((Tile.j :: ([Tile.norm 2 Suit.s, Tile.norm 3 Suit.s,
        Tile.norm 4 Suit.s, Tile.norm 5 Suit.s, Tile.norm 6 Suit.s,
        Tile.norm 7 Suit.s, Tile.norm 8 Suit.s, Tile.norm 8 Suit.s,
        Tile.norm 8 Suit.s, Tile.j, Tile.j, Tile.j, Tile.j] : List Tile).erase
          (Tile.norm 8 Suit.s)) ++ [t]).length = 14 := by
      rw [List.length_append, List.length_singleton]
      decide
    have hwj : 5 ≤ ((Tile.j :: ([Tile.norm 2 Suit.s, Tile.norm 3 Suit.s,
        Tile.norm 4 Suit.s, Tile.norm 5 Suit.s, Tile.norm 6 Suit.s,
        Tile.norm 7 Suit.s, Tile.norm 8 Suit.s, Tile.norm 8 Suit.s,
        Tile.norm 8 Suit.s, Tile.j, Tile.j, Tile.j, Tile.j] : List Tile).erase
          (Tile.norm 8 Suit.s)) ++ [t]).count Tile.j := by
      rw [List.count_append]
      have h5 : ((Tile.j :: ([Tile.norm 2 Suit.s, Tile.norm 3 Suit.s,
          Tile.norm 4 Suit.s, Tile.norm 5 Suit.s, Tile.norm 6 Suit.s,
          Tile.norm 7 Suit.s, Tile.norm 8 Suit.s, Tile.norm 8 Suit.s,
          Tile.norm 8 Suit.s, Tile.j, Tile.j, Tile.j, Tile.j] : List Tile).erase
            (Tile.norm 8 Suit.s))).count Tile.j = 5 := by decide
      omega
    have hwfalse := many_jokers_not_winning hwlen hwj
    intro hpt
    simp only [Bool.and_eq_true] at hpt
    have h2 := hpt.2
    rw [hwfalse] at h2
    exact Bool.noConfusion h2
  have hmem : Tile.norm 9 Suit.s ∈ winning_filter [Tile.norm 2 Suit.s,
      Tile.norm 3 Suit.s, Tile.norm 4 Suit.s, Tile.norm 5 Suit.s,
      Tile.norm 6 Suit.s, Tile.norm 7 Suit.s, Tile.norm 8 Suit.s,
      Tile.norm 8 Suit.s, Tile.norm 8 Suit.s, Tile.j, Tile.j, Tile.j, Tile.j] := by
    apply mem_winning_filter.mpr
    refine ⟨by decide, Or.inr (by decide), ?_⟩
    have hr : [Tile.norm 1 Suit.s, Tile.norm 1 Suit.s, Tile.norm 9 Suit.s,
        Tile.norm 9 Suit.s] ∈ joker_tuples
          (if (([Tile.norm 2 Suit.s, Tile.norm 3 Suit.s, Tile.norm 4 Suit.s,
            Tile.norm 5 Suit.s, Tile.norm 6 Suit.s, Tile.norm 7 Suit.s,
            Tile.norm 8 Suit.s, Tile.norm 8 Suit.s, Tile.norm 8 Suit.s,
            Tile.j, Tile.j, Tile.j, Tile.j] ++ [Tile.norm 9 Suit.s]) :
              List Tile).count Tile.j > 4 then 4
          else (([Tile.norm 2 Suit.s, Tile.norm 3 Suit.s, Tile.norm 4 Suit.s,
            Tile.norm 5 Suit.s, Tile.norm 6 Suit.s, Tile.norm 7 Suit.s,
            Tile.norm 8 Suit.s, Tile.norm 8 Suit.s, Tile.norm 8 Suit.s,
            Tile.j, Tile.j, Tile.j, Tile.j] ++ [Tile.norm 9 Suit.s]) :
              List Tile).count Tile.j) := by
      have hidx : (if (([Tile.norm 2 Suit.s, Tile.norm 3 Suit.s, Tile.norm 4 Suit.s,
          Tile.norm 5 Suit.s, Tile.norm 6 Suit.s, Tile.norm 7 Suit.s,
          Tile.norm 8 Suit.s, Tile.norm 8 Suit.s, Tile.norm 8 Suit.s,
          Tile.j, Tile.j, Tile.j, Tile.j] ++ [Tile.norm 9 Suit.s]) :
            List Tile).count Tile.j > 4 then 4
          else (([Tile.norm 2 Suit.s, Tile.norm 3 Suit.s, Tile.norm 4 Suit.s,
          Tile.norm 5 Suit.s, Tile.norm 6 Suit.s, Tile.norm 7 Suit.s,
          Tile.norm 8 Suit.s, Tile.norm 8 Suit.s, Tile.norm 8 Suit.s,
          Tile.j, Tile.j, Tile.j, Tile.j] ++ [Tile.norm 9 Suit.s]) :
            List Tile).count Tile.j) = 4 := by decide
      rw [hidx]
      exact mem_joker_tuples_of (by decide)
    apply is_winning_via_combo (by decide) (by decide)
      (combo_mem_generate (by decide) hr)
    decide
  rw [winning_count, winning_count, find_winning_tiles, find_winning_tiles,
    if_pos (by decide), if_pos (by decide), Option.getD_some, Option.getD_some,
    hzero]
  simpa using List.length_pos.mpr (List.ne_nil_of_mem hmem)

end Mahjong
